import Mathlib

/-!
Shallow embedding of the turbogate L4 load balancer core (Rust sources in
`src/`), together with theorems settling the specification claims about the
load-balancing policies, the health-check state machine, the accept loop's
global connection cap, backend selection, ACL evaluation at L4, the DDoS
protection checks, and the connection counters.

Machine integers (`u16`, `u32`, `u64`, `usize`) are modelled as `Nat`, except
the active-connection counters, which are modelled as `Int` so that the
absence of underflow is a provable statement rather than a typing artifact.
`std::time::Instant` fields are modelled as `Nat` timestamps; fields whose
only role is wall-clock bookkeeping and that no claim touches are omitted,
with a note at the structure.
-/

namespace Turbogate

/-! ## `health.rs`: `ServerStatus` -/

/-- Embedding of `health.rs` `enum ServerStatus`. -/
inductive ServerStatus where
  | up
  | down
  | maintenance
deriving DecidableEq, Repr, Inhabited

/-! ## `config.rs`: server / backend / frontend configuration -/

/-- Embedding of `config.rs` `struct ServerConfig` (all fields). -/
structure ServerConfig where
  name : String
  address : String
  port : Nat
  weight : Option Nat
  maxconn : Option Nat
  check : Option Bool
  inter : Option String
  rise : Option Nat
  fall : Option Nat
  backup : Option Bool
  disabled : Option Bool
deriving DecidableEq, Repr, Inhabited

/-- Embedding of `config.rs` `struct AclConfig`. -/
structure AclConfig where
  name : String
  criterion : String
deriving DecidableEq, Repr, Inhabited

/-- Embedding of `config.rs` `struct UseBackendConfig`. -/
structure UseBackendConfig where
  backend : String
  condition : Option String
deriving DecidableEq, Repr, Inhabited

/-- Embedding of `config.rs` `struct FrontendConfig`.  The `timeout` map and
the `options` sub-structure (timeout durations, keep-alive flags) are not read
by any code a claim is about and are omitted. -/
structure FrontendConfig where
  name : String
  bind : List String
  mode : Option String
  default_backend : Option String
  acl : List AclConfig
  use_backend : List UseBackendConfig
  option : List String
deriving DecidableEq, Repr, Inhabited

/-- Embedding of `config.rs` `struct GlobalConfig` (all fields). -/
structure GlobalConfig where
  maxconn : Option Nat
  log : Option String
  user : Option String
  group : Option String
  daemon : Option Bool
  pidfile : Option String
  ssl_default_bind_ciphers : Option String
  ssl_default_bind_options : Option String
  option : List String
deriving DecidableEq, Repr, Inhabited

/-- Embedding of `impl Default for GlobalConfig` in `config.rs`. -/
def GlobalConfig.default : GlobalConfig where
  maxconn := some 4096
  log := some "stdout"
  user := none
  group := none
  daemon := some false
  pidfile := none
  ssl_default_bind_ciphers := some "EECDH+AESGCM:EDH+AESGCM"
  ssl_default_bind_options := some "no-sslv3"
  option := []

/-! ## `balancer.rs`: server runtime state and the load-balancing policies -/

/-- Embedding of `balancer.rs` `struct ServerState`.  The `last_used : Instant`
field (wall-clock bookkeeping only) is omitted.  `active_connections` (a `u32`
in the source) is modelled as `Int` so that non-negativity is provable. -/
structure ServerState where
  config : ServerConfig
  active_connections : Int
  total_connections : Nat
  weight : Nat
  status : ServerStatus
deriving DecidableEq, Repr, Inhabited

/-- Embedding of `ServerState::new`: weight defaults to 1, status starts Up,
counters start at zero. -/
def ServerState.new (config : ServerConfig) : ServerState where
  config := config
  active_connections := 0
  total_connections := 0
  weight := config.weight.getD 1
  status := .up

/-- Embedding of `ServerState::increment_connections` (the `last_used` update
is dropped with the field). -/
def ServerState.increment_connections (s : ServerState) : ServerState :=
  { s with
    active_connections := s.active_connections + 1
    total_connections := s.total_connections + 1 }

/-- Embedding of `ServerState::decrement_connections`: decrement only when the
counter is strictly positive. -/
def ServerState.decrement_connections (s : ServerState) : ServerState :=
  if 0 < s.active_connections then
    { s with active_connections := s.active_connections - 1 }
  else
    s

/-- Embedding of `ServerState::is_available`: Up, not disabled, not backup,
and positive weight. -/
def ServerState.is_available (s : ServerState) : Bool :=
  s.status == .up &&
  !(s.config.disabled.getD false) &&
  !(s.config.backup.getD false) &&
  decide (0 < s.weight)

/-- Embedding of `ServerState::is_backup`. -/
def ServerState.is_backup (s : ServerState) : Bool :=
  s.config.backup.getD false

/-- Embedding of `RoundRobinBalancer::select_server`.  The balancer state is
its `current_index` field; the function returns the selected server (if any)
together with the updated index.  Note the order in the source: the index is
advanced first, and the element at the *new* index is returned. -/
def rrSelectServer (servers : List ServerState) (current_index : Nat) :
    Option ServerState × Nat :=
  if servers.isEmpty then (none, current_index)
  else
    let available := servers.filter ServerState.is_available
    if available.isEmpty then
      let backups := servers.filter fun s =>
        s.is_backup && s.status == .up
      if backups.isEmpty then (none, current_index)
      else
        let i := (current_index + 1) % backups.length
        (some (backups.getD i default), i)
    else
      let i := (current_index + 1) % available.length
      (some (available.getD i default), i)

/-- Embedding of `LeastConnectionBalancer::select_server`.  The call to
`rand::random::<usize>()` used for tie-breaking is passed in as `rnd`. -/
def lcSelectServer (servers : List ServerState) (rnd : Nat) :
    Option ServerState :=
  let available := servers.filter ServerState.is_available
  if available.isEmpty then none
  else
    let minConnections := ((available.map (·.active_connections)).min?).getD 0
    let withMin := available.filter fun s =>
      s.active_connections == minConnections
    if withMin.length == 1 then some (withMin.getD 0 default)
    else some (withMin.getD (rnd % withMin.length) default)

/-- Embedding of `WeightedRoundRobinBalancer::calculate_gcd` (Euclid's
algorithm exactly as written in the source). -/
def calculateGcd (a b : Nat) : Nat :=
  if b = 0 then a else calculateGcd b (a % b)
termination_by b
decreasing_by exact Nat.mod_lt _ (Nat.pos_of_ne_zero (by assumption))

/-- The filter used by the weighted balancer and by
`calculate_gcd_of_weights`: available and with positive weight (the weight
test is redundant with `is_available` but appears in the source). -/
def wrrFilter (s : ServerState) : Bool :=
  s.is_available && decide (0 < s.weight)

/-- Embedding of `WeightedRoundRobinBalancer::calculate_gcd_of_weights`:
fold `calculate_gcd` over the weights of the available servers, starting from
the first weight; 1 when there are none. -/
def calculateGcdOfWeights (servers : List ServerState) : Nat :=
  match (servers.filter wrrFilter).map (·.weight) with
  | [] => 1
  | w :: rest => rest.foldl calculateGcd w

/-- Embedding of the `WeightedRoundRobinBalancer` state struct. -/
structure WrrState where
  current_index : Nat
  current_weight : Nat
  max_weight : Nat
  gcd : Nat
deriving DecidableEq, Repr, Inhabited

/-- Embedding of `WeightedRoundRobinBalancer::new`. -/
def WrrState.new : WrrState where
  current_index := 0
  current_weight := 0
  max_weight := 0
  gcd := 1

/-- Embedding of the unbounded `loop` inside
`WeightedRoundRobinBalancer::select_server`, with explicit fuel.  Each
iteration advances the index circularly, decrements `current_weight` by the
gcd on wrap-around (resetting to the maximal weight when it reaches 0,
`saturating_sub` is `Nat` subtraction), and returns the first server whose
weight is at least `current_weight`.  `none` means the fuel ran out (shown
impossible for fuel at least the number of available servers). -/
def wrrLoop (available : List ServerState) (g m : Nat) :
    Nat → Nat → Nat → Option (ServerState × Nat × Nat)
  | _, _, 0 => none
  | idx, cw, fuel + 1 =>
    let idx' := (idx + 1) % available.length
    let cw' :=
      if idx' = 0 then
        let c := cw - g
        if c = 0 then m else c
      else cw
    let server := available.getD idx' default
    if cw' ≤ server.weight then some (server, idx', cw')
    else wrrLoop available g m idx' cw' fuel

/-- Embedding of `WeightedRoundRobinBalancer::select_server` (fuelled).
Returns the selected server (if any) and the updated balancer state. -/
def wrrSelectServer (servers : List ServerState) (st : WrrState)
    (fuel : Nat) : Option ServerState × WrrState :=
  let available := servers.filter wrrFilter
  if available.isEmpty then (none, st)
  else
    let g := calculateGcdOfWeights servers
    let m := ((available.map (·.weight)).max?).getD 1
    let cw0 := if st.current_weight = 0 then m else st.current_weight
    match wrrLoop available g m st.current_index cw0 fuel with
    | some (server, idx, cw) =>
      (some server, ⟨idx, cw, m, g⟩)
    | none => (none, ⟨st.current_index, cw0, m, g⟩)

/-- Embedding of `RandomBalancer::select_server`; the `rand::random` draw is
the `rnd` argument. -/
def randomSelectServer (servers : List ServerState) (rnd : Nat) :
    Option ServerState :=
  let available := servers.filter ServerState.is_available
  if available.isEmpty then none
  else some (available.getD (rnd % available.length) default)

/-- Embedding of `SourceHashBalancer::select_server`: at L4 it falls back to a
random pick over the available servers (the source comments that source
hashing is not implemented at this level). -/
def sourceHashSelectServer (servers : List ServerState) (rnd : Nat) :
    Option ServerState :=
  let available := servers.filter ServerState.is_available
  if available.isEmpty then none
  else some (available.getD (rnd % available.length) default)

/-- The balancer variants `LoadBalancerFactory::create` can return. -/
inductive BalancerKind where
  | weightedRoundRobin
  | leastConn
  | sourceHash
  | random
deriving DecidableEq, Repr

/-- Embedding of `LoadBalancerFactory::create`: note that the algorithm name
"roundrobin" is mapped to the *weighted* round-robin balancer, as is any
unknown name; the plain `RoundRobinBalancer` is never constructed. -/
def factoryCreate (algorithm : String) : BalancerKind :=
  match algorithm.toLower with
  | "roundrobin" => .weightedRoundRobin
  | "leastconn" => .leastConn
  | "weighted_roundrobin" => .weightedRoundRobin
  | "source" => .sourceHash
  | "random" => .random
  | _ => .weightedRoundRobin

/-! ## `health.rs`: the health-check state machine -/

/-- Embedding of `health.rs` `struct HealthState`.  The `Instant` fields
(`last_check`, `last_success`, `last_failure`) are wall-clock bookkeeping and
are omitted. -/
structure HealthState where
  status : ServerStatus
  consecutive_failures : Nat
  consecutive_successes : Nat
deriving DecidableEq, Repr, Inhabited

/-- Embedding of `impl Default for HealthState`: status Up, both counters 0. -/
def HealthState.init : HealthState where
  status := .up
  consecutive_failures := 0
  consecutive_successes := 0

/-- Embedding of the state update in `HealthChecker::check_server_health`:
`ok` is the probe outcome.  On success the success counter is incremented and
the failure counter zeroed, and the server transitions to Up when the (new)
success count reaches `rise` and the status was not already Up; symmetrically
on failure with `fall` and Down. -/
def checkServerHealth (ok : Bool) (rise fall : Nat) (h : HealthState) :
    HealthState :=
  if ok then
    let h := { h with
      consecutive_successes := h.consecutive_successes + 1
      consecutive_failures := 0 }
    if rise ≤ h.consecutive_successes then
      if h.status ≠ .up then { h with status := .up } else h
    else h
  else
    let h := { h with
      consecutive_failures := h.consecutive_failures + 1
      consecutive_successes := 0 }
    if fall ≤ h.consecutive_failures then
      if h.status ≠ .down then { h with status := .down } else h
    else h

/-- A sequence of probe outcomes applied to a health state. -/
def runHealthChecks (rise fall : Nat) (results : List Bool)
    (h : HealthState) : HealthState :=
  results.foldl (fun h ok => checkServerHealth ok rise fall h) h

/-! ## IP addresses and networks

Models of `std::net::IpAddr` / `SocketAddr` and of the external `ipnetwork`
crate used by `utils.rs`.  An address is its numeric value (32-bit for v4,
128-bit for v6); a network is a base address plus prefix length, and
membership compares the high `prefixLen` bits. -/

/-- Model of `std::net::IpAddr`: the address as a number. -/
inductive IpAddr where
  | v4 (bits : Nat)
  | v6 (bits : Nat)
deriving DecidableEq, Repr, Inhabited

/-- Model of `std::net::SocketAddr`. -/
structure SocketAddr where
  ip : IpAddr
  port : Nat
deriving DecidableEq, Repr, Inhabited

/-- Model of `ipnetwork::IpNetwork`: base address and prefix length. -/
inductive IpNetwork where
  | v4 (addr prefixLen : Nat)
  | v6 (addr prefixLen : Nat)
deriving DecidableEq, Repr, Inhabited

/-- Decimal digit-string parsing (the model of `str::parse` / `toNat?`),
written by structural recursion over the character list so that concrete
instances reduce by `rfl`. -/
def digitsToNatAux : List Char → Nat → Option Nat
  | [], acc => some acc
  | c :: cs, acc =>
    if c.isDigit then digitsToNatAux cs (acc * 10 + (c.toNat - 48)) else none

/-- Model of `String.toNat?` on the character list. -/
def strToNat? (s : String) : Option Nat :=
  match s.toList with
  | [] => none
  | cs => digitsToNatAux cs 0

/-- Split a string at every occurrence of the separator character (the model
of `str::split` with a one-character pattern), structurally recursive. -/
def splitOnCharAux (sep : Char) : List Char → List Char → List String
  | [], acc => [String.mk acc.reverse]
  | c :: cs, acc =>
    if c = sep then String.mk acc.reverse :: splitOnCharAux sep cs []
    else splitOnCharAux sep cs (c :: acc)

/-- Split a string on a separator character. -/
def splitOnChar (s : String) (sep : Char) : List String :=
  splitOnCharAux sep s.toList []

/-- Model of the `std` textual IPv4 parser: four dot-separated decimal octets,
each at most 255, combined big-endian. -/
def parseIpv4String (s : String) : Option Nat :=
  match splitOnChar s '.' with
  | [a, b, c, d] =>
    match strToNat? a, strToNat? b, strToNat? c, strToNat? d with
    | some a', some b', some c', some d' =>
      if a' ≤ 255 && b' ≤ 255 && c' ≤ 255 && d' ≤ 255 then
        some (((a' * 256 + b') * 256 + c') * 256 + d')
      else none
    | _, _, _, _ => none
  | _ => none

/-- Model of `IpAddr::from_str`.  Textual IPv6 parsing is not modelled (no
claim exercises it); a string that is not a v4 address fails to parse. -/
def parseIpAddrString (s : String) : Option IpAddr :=
  (parseIpv4String s).map .v4

/-- Embedding of `utils::parse_ip_or_cidr`: CIDR when the input contains a
slash (deferring to the `ipnetwork` parser, modelled for v4), otherwise a
single IP widened to a full-length prefix. -/
def parseIpOrCidr (input : String) : Except String IpNetwork :=
  if input.toList.contains '/' then
    match splitOnChar input '/' with
    | [ipStr, plenStr] =>
      match parseIpv4String ipStr, strToNat? plenStr with
      | some addr, some p =>
        if p ≤ 32 then .ok (.v4 addr p) else .error "Invalid CIDR"
      | _, _ => .error "Invalid CIDR"
    | _ => .error "Invalid CIDR"
  else
    match parseIpAddrString input with
    | some (.v4 bits) => .ok (.v4 bits 32)
    | some (.v6 bits) => .ok (.v6 bits 128)
    | none => .error "Invalid IP"

/-- Embedding of `utils::ip_in_network` (the crate's `contains`): compare the
high `prefixLen` bits; families must match. -/
def ipInNetwork (ip : IpAddr) (network : IpNetwork) : Bool :=
  match ip, network with
  | .v4 bits, .v4 addr p => bits / 2 ^ (32 - p) == addr / 2 ^ (32 - p)
  | .v6 bits, .v6 addr p => bits / 2 ^ (128 - p) == addr / 2 ^ (128 - p)
  | _, _ => false

/-! ## `acl.rs`: ACL parsing and evaluation -/

/-- Embedding of `acl.rs` `enum AclCondition`. -/
inductive AclCondition where
  | sourceIp (network : IpNetwork)
  | sourcePort (port : Nat)
  | destinationPort (port : Nat)
  | hostname (h : String)
  | pathCond (p : String)
  | header (name value : String)
  | custom (criterion : String)
deriving DecidableEq, Repr, Inhabited

/-- Embedding of `acl.rs` `struct RequestData` (headers as an association
list). -/
structure RequestData where
  host : Option String
  reqPath : Option String
  headers : List (String × String)
  method : Option String
deriving DecidableEq, Repr, Inhabited

/-- Embedding of `acl.rs` `struct Acl`. -/
structure Acl where
  name : String
  conditions : List AclCondition
deriving DecidableEq, Repr, Inhabited

/-- Model of Rust's `str::split_whitespace` (split on whitespace runs,
no empty fragments), structurally recursive over the character list. -/
def splitWsAux : List Char → List Char → List String
  | [], acc => if acc.isEmpty then [] else [String.mk acc.reverse]
  | c :: cs, acc =>
    if c.isWhitespace then
      if acc.isEmpty then splitWsAux cs []
      else String.mk acc.reverse :: splitWsAux cs []
    else splitWsAux cs (c :: acc)

/-- Model of Rust's `str::split_whitespace`. -/
def splitWhitespace (s : String) : List String :=
  splitWsAux s.toList []

/-- Model of `str::parse::<u16>`. -/
def parsePortU16 (s : String) : Except String Nat :=
  match strToNat? s with
  | some n => if n < 65536 then .ok n else .error "Invalid port"
  | none => .error "Invalid port"

/-- Embedding of `Acl::parse_criterion`: dispatch on the first whitespace
token; `src`, `src_port`, `dst_port`, `hdr`, `path` and `host` produce the
corresponding condition, anything else becomes `custom` (with a warning in
the source). -/
def Acl.parseCriterion (criterion : String) : Except String (List AclCondition) :=
  match splitWhitespace criterion with
  | [] => .error "Empty ACL criterion"
  | tag :: rest =>
    match tag with
    | "src" =>
      match rest with
      | [] => .error "Invalid src ACL: missing IP or CIDR"
      | ipStr :: _ =>
        match parseIpOrCidr ipStr with
        | .ok network => .ok [.sourceIp network]
        | .error e => .error e
    | "src_port" =>
      match rest with
      | [] => .error "Invalid src_port ACL: missing port"
      | portStr :: _ =>
        match parsePortU16 portStr with
        | .ok port => .ok [.sourcePort port]
        | .error e => .error e
    | "dst_port" =>
      match rest with
      | [] => .error "Invalid dst_port ACL: missing port"
      | portStr :: _ =>
        match parsePortU16 portStr with
        | .ok port => .ok [.destinationPort port]
        | .error e => .error e
    | "hdr" =>
      match rest with
      | headerName :: headerValue :: _ =>
        .ok [.header headerName headerValue]
      | _ => .error "Invalid hdr ACL: missing header name or value"
    | "path" =>
      match rest with
      | [] => .error "Invalid path ACL: missing path"
      | p :: _ => .ok [.pathCond p]
    | "host" =>
      match rest with
      | [] => .error "Invalid host ACL: missing hostname"
      | h :: _ => .ok [.hostname h]
    | _ => .ok [.custom criterion]

/-- Embedding of `Acl::from_config`. -/
def Acl.fromConfig (config : AclConfig) : Except String Acl :=
  match Acl.parseCriterion config.criterion with
  | .ok conditions => .ok { name := config.name, conditions := conditions }
  | .error e => .error e

/-- Embedding of `Acl::evaluate_condition`.  Source IP and source port test
the client address; destination port and `custom` are stubbed to `true` at
L4; hostname, path and header conditions consult `request_data` and are
`false` when it is absent. -/
def Acl.evaluateCondition (condition : AclCondition) (client_addr : SocketAddr)
    (request_data : Option RequestData) : Except String Bool :=
  match condition with
  | .sourceIp network => .ok (ipInNetwork client_addr.ip network)
  | .sourcePort port => .ok (client_addr.port == port)
  | .destinationPort _ => .ok true
  | .hostname hostname =>
    match request_data with
    | some data =>
      match data.host with
      | some host => .ok (host == hostname)
      | none => .ok false
    | none => .ok false
  | .pathCond p =>
    match request_data with
    | some data =>
      match data.reqPath with
      | some reqPath => .ok (reqPath.startsWith p)
      | none => .ok false
    | none => .ok false
  | .header name value =>
    match request_data with
    | some data =>
      match data.headers.lookup name with
      | some headerValue => .ok (headerValue == value)
      | none => .ok false
    | none => .ok false
  | .custom _ => .ok true

/-- The conjunction loop in `Acl::evaluate`: false as soon as one condition
is false, propagating errors. -/
def Acl.evaluateConditions (conditions : List AclCondition)
    (client_addr : SocketAddr) (request_data : Option RequestData) :
    Except String Bool :=
  match conditions with
  | [] => .ok true
  | c :: rest =>
    match Acl.evaluateCondition c client_addr request_data with
    | .error e => .error e
    | .ok false => .ok false
    | .ok true => Acl.evaluateConditions rest client_addr request_data

/-- Embedding of `Acl::evaluate`. -/
def Acl.evaluate (acl : Acl) (client_addr : SocketAddr)
    (request_data : Option RequestData) : Except String Bool :=
  Acl.evaluateConditions acl.conditions client_addr request_data

/-! ## `proxy.rs`: backend selection, the accept loop, the handler -/

namespace ProxyServer

/-- Embedding of `ProxyServer::evaluate_acl`: build the ACL from its config
and evaluate it with *no* request data (the L4 path). -/
def evaluateAcl (acl : AclConfig) (client_addr : SocketAddr) :
    Except String Bool :=
  match Acl.fromConfig acl with
  | .error e => .error e
  | .ok a => a.evaluate client_addr none

/-- Embedding of `ProxyServer::evaluate_condition` for `use_backend`
conditions: the L4 implementation permits everything. -/
def evaluateCondition (_condition : String) (_client_addr : SocketAddr) :
    Except String Bool :=
  .ok true

/-- The ACL loop at the top of `ProxyServer::select_backend`: any ACL that
evaluates to false aborts with an access-denied error. -/
def checkAcls (acls : List AclConfig) (client_addr : SocketAddr) :
    Except String Unit :=
  match acls with
  | [] => .ok ()
  | a :: rest =>
    match evaluateAcl a client_addr with
    | .error e => .error e
    | .ok false => .error ("Access denied by ACL " ++ a.name)
    | .ok true => checkAcls rest client_addr

/-- The `use_backend` loop of `ProxyServer::select_backend`: the first rule
that has a condition and whose condition evaluates to true wins; rules
without a condition are skipped. -/
def findUseBackend (rules : List UseBackendConfig) (client_addr : SocketAddr) :
    Except String (Option String) :=
  match rules with
  | [] => .ok none
  | ub :: rest =>
    match ub.condition with
    | none => findUseBackend rest client_addr
    | some c =>
      match evaluateCondition c client_addr with
      | .error e => .error e
      | .ok true => .ok (some ub.backend)
      | .ok false => findUseBackend rest client_addr

/-- Embedding of `ProxyServer::select_backend`: ACL gate, then the
`use_backend` chain, then `default_backend`, otherwise an error. -/
def selectBackend (frontend_config : FrontendConfig)
    (client_addr : SocketAddr) : Except String String :=
  match checkAcls frontend_config.acl client_addr with
  | .error e => .error e
  | .ok () =>
    match findUseBackend frontend_config.use_backend client_addr with
    | .error e => .error e
    | .ok (some backend) => .ok backend
    | .ok none =>
      match frontend_config.default_backend with
      | some backend => .ok backend
      | none =>
        .error ("No backend selected for frontend " ++ frontend_config.name)

end ProxyServer

/-! ### The accept loop's global connection cap -/

/-- The per-frontend active-connection map
(`active_connections: HashMap<String, u64>` in `proxy.rs`), as an association
list. -/
abbrev FrontendConns := List (String × Nat)

/-- Embedding of `conns.entry(name).or_insert(0) += 1`. -/
def mapIncr (k : String) : FrontendConns → FrontendConns
  | [] => [(k, 1)]
  | (k', v) :: rest =>
    if k' = k then (k', v + 1) :: rest else (k', v) :: mapIncr k rest

/-- Embedding of `if let Some(count) = conns.get_mut(name) then
count = count.saturating_sub(1)`. -/
def mapDecr (k : String) : FrontendConns → FrontendConns
  | [] => []
  | (k', v) :: rest =>
    if k' = k then (k', v - 1) :: rest else (k', v) :: mapDecr k rest

/-- Embedding of `conns.values().sum()`. -/
def sumConns (conns : FrontendConns) : Nat :=
  (conns.map (·.2)).sum

/-- Embedding of `config.global.maxconn.unwrap_or(4096)`. -/
def globalMaxconn (maxconn : Option Nat) : Nat :=
  maxconn.getD 4096

/-- Embedding of one iteration of `ProxyServer::accept_connections` up to the
spawn: when the sum of active connections over all frontends has reached the
cap, the connection is rejected (`continue`, no handler spawned, no dial) and
the map is untouched; otherwise the frontend's counter is incremented and the
handler is spawned.  The returned `Bool` is whether a handler was spawned. -/
def acceptStep (global : GlobalConfig) (frontend_name : String)
    (conns : FrontendConns) : Bool × FrontendConns :=
  let max_connections := globalMaxconn global.maxconn
  if max_connections ≤ sumConns conns then (false, conns)
  else (true, mapIncr frontend_name conns)

/-- Embedding of the tail of the spawned task in `accept_connections`: after
`handle_connection` returns (success or failure), the frontend's counter is
decremented (saturating). -/
def handlerExit (frontend_name : String) (conns : FrontendConns) :
    FrontendConns :=
  mapDecr frontend_name conns

/-- The two events that change the per-frontend connection map: an accept
iteration and a handler completion. -/
inductive ConnTraceEvent where
  | accepted (frontend : String)
  | finished (frontend : String)
deriving DecidableEq, Repr

/-- Apply one event to the connection map. -/
def applyConnEvent (global : GlobalConfig) (conns : FrontendConns) :
    ConnTraceEvent → FrontendConns
  | .accepted f => (acceptStep global f conns).2
  | .finished f => handlerExit f conns

/-- Run a trace of accept/finish events from the empty map (the state at
`ProxyServer::new`). -/
def runConnEvents (global : GlobalConfig) (evs : List ConnTraceEvent) :
    FrontendConns :=
  evs.foldl (applyConnEvent global) []

/-! ### The connection handler as an event trace -/

/-- The observable steps of `ProxyServer::handle_connection` that the claims
are about. -/
inductive HandlerEvent where
  | selectedBackend (backend : String)
  | selectedServer (server : String)
  | incrementServerConnections (server : String)
  | decrementServerConnections (server : String)
  | dialUpstream (server : String)
  | proxyData (server : String)
deriving DecidableEq, Repr

/-- Embedding of the control flow of `ProxyServer::handle_connection` as the
trace of handler events it performs, with the I/O outcomes as parameters:
`serverSel` is the balancer's answer, `dialOk` whether the upstream dial
succeeded within the timeout, `proxyOk` whether the byte pump succeeded.
The source never calls `increment_server_connections` or
`decrement_server_connections`, so no trace contains those events. -/
def handleConnection (frontend_config : FrontendConfig) (client_addr : SocketAddr)
    (serverSel : Option ServerConfig) (dialOk proxyOk : Bool) :
    Except String Unit × List HandlerEvent :=
  match ProxyServer.selectBackend frontend_config client_addr with
  | .error e => (.error e, [])
  | .ok backendName =>
    match serverSel with
    | none =>
      (.error "No available servers in backend", [.selectedBackend backendName])
    | some server =>
      let evs := [HandlerEvent.selectedBackend backendName,
                  HandlerEvent.selectedServer server.name,
                  HandlerEvent.dialUpstream server.name]
      if !dialOk then (.error "connection failed", evs)
      else if proxyOk then (.ok (), evs ++ [.proxyData server.name])
      else (.error "proxy error", evs ++ [.proxyData server.name])

/-- One whole connection seen from the accept loop: admission check and
per-frontend increment, then the handler, then the per-frontend decrement
when the spawned task finishes (regardless of the handler's outcome). -/
def connectionLifecycle (global : GlobalConfig) (frontend_name : String)
    (frontend_config : FrontendConfig) (client_addr : SocketAddr)
    (serverSel : Option ServerConfig) (dialOk proxyOk : Bool)
    (conns : FrontendConns) : FrontendConns × List HandlerEvent :=
  let step := acceptStep global frontend_name conns
  if step.1 then
    let handled := handleConnection frontend_config client_addr serverSel
      dialOk proxyOk
    (handlerExit frontend_name step.2, handled.2)
  else (step.2, [])

/-! ## `ddos_protection.rs` -/

/-- Embedding of `ddos_protection.rs` `struct DdosConfig`. -/
structure DdosConfig where
  reset_interval_seconds : Nat
  max_requests_per_minute : Option Nat
  max_connections_per_ip : Option Nat
  suspicious_patterns : List String
  whitelist : List IpAddr
  blacklist : List IpAddr
deriving DecidableEq, Repr, Inhabited

/-- Embedding of `struct IpActivity`.  The `u32` counters are modelled as
`Int` so that non-negativity is provable; `last_request_time` is an `Instant`
modelled as a second count. -/
structure IpActivity where
  request_count : Int
  connection_count : Int
  last_request_time : Nat
deriving DecidableEq, Repr, Inhabited

/-- Embedding of `impl Default for IpActivity`, at creation time `now`. -/
def IpActivity.init (now : Nat) : IpActivity where
  request_count := 0
  connection_count := 0
  last_request_time := now

/-- The per-IP activity map (`DashMap<IpAddr, IpActivity>`), as an
association list. -/
abbrev ActivityMap := List (IpAddr × IpActivity)

/-- Lookup in the activity map. -/
def alLookup : ActivityMap → IpAddr → Option IpActivity
  | [], _ => none
  | (k, v) :: rest, ip => if k = ip then some v else alLookup rest ip

/-- Insert or replace in the activity map. -/
def alInsert : ActivityMap → IpAddr → IpActivity → ActivityMap
  | [], ip, act => [(ip, act)]
  | (k, v) :: rest, ip, act =>
    if k = ip then (ip, act) :: rest else (k, v) :: alInsert rest ip act

namespace DdosProtection

/-- Embedding of `DdosProtection::check_rate_limit`.  The whitelist test runs
first and permits unconditionally; the blacklist test runs second and denies;
only then is the per-IP activity entry created/updated.  `now` is the current
time in seconds. -/
def check_rate_limit (config : DdosConfig) (activity : ActivityMap)
    (client_ip : IpAddr) (now : Nat) : Bool × ActivityMap :=
  if config.whitelist.contains client_ip then (true, activity)
  else if config.blacklist.contains client_ip then (false, activity)
  else
    let act := (alLookup activity client_ip).getD (IpActivity.init now)
    match config.max_requests_per_minute with
    | some max_requests =>
      let time_since_last := now - act.last_request_time
      let act := if 60 ≤ time_since_last then
          { act with request_count := 0 }
        else act
      if (max_requests : Int) ≤ act.request_count then
        (false, alInsert activity client_ip act)
      else
        (true, alInsert activity client_ip
          { act with request_count := act.request_count + 1
                     last_request_time := now })
    | none => (true, alInsert activity client_ip act)

/-- Embedding of `DdosProtection::check_connection_limit`: whitelist first,
then blacklist, then the per-IP live-connection cap (incrementing the count
when admitted). -/
def check_connection_limit (config : DdosConfig) (activity : ActivityMap)
    (client_ip : IpAddr) (now : Nat) : Bool × ActivityMap :=
  if config.whitelist.contains client_ip then (true, activity)
  else if config.blacklist.contains client_ip then (false, activity)
  else
    let act := (alLookup activity client_ip).getD (IpActivity.init now)
    match config.max_connections_per_ip with
    | some max_connections =>
      if (max_connections : Int) ≤ act.connection_count then
        (false, alInsert activity client_ip act)
      else
        (true, alInsert activity client_ip
          { act with connection_count := act.connection_count + 1 })
    | none => (true, alInsert activity client_ip act)

/-- Embedding of `DdosProtection::connection_closed`: decrement the per-IP
connection count only when the entry exists and is strictly positive. -/
def connection_closed (activity : ActivityMap) (client_ip : IpAddr) :
    ActivityMap :=
  match alLookup activity client_ip with
  | some act =>
    if 0 < act.connection_count then
      alInsert activity client_ip
        { act with connection_count := act.connection_count - 1 }
    else activity
  | none => activity

end DdosProtection

/-- The operations that touch the per-IP activity map. -/
inductive DdosEvent where
  | rateCheck (ip : IpAddr) (now : Nat)
  | connOpen (ip : IpAddr) (now : Nat)
  | connClosed (ip : IpAddr)
deriving DecidableEq, Repr

/-- Apply one DDoS-protection operation to the activity map. -/
def applyDdosEvent (config : DdosConfig) (activity : ActivityMap) :
    DdosEvent → ActivityMap
  | .rateCheck ip now => (DdosProtection.check_rate_limit config activity ip now).2
  | .connOpen ip now =>
    (DdosProtection.check_connection_limit config activity ip now).2
  | .connClosed ip => DdosProtection.connection_closed activity ip

/-- Run a trace of DDoS-protection operations from the empty map. -/
def runDdosEvents (config : DdosConfig) (evs : List DdosEvent) : ActivityMap :=
  evs.foldl (applyDdosEvent config) []

/-! ### Per-server connection counter operations (for the underflow claim) -/

/-- The operations the proxy could perform on one server's connection
counters. -/
inductive ConnOp where
  | inc
  | dec
deriving DecidableEq, Repr

/-- Apply a sequence of increments/decrements to a server state. -/
def runConnOps (s : ServerState) (ops : List ConnOp) : ServerState :=
  ops.foldl
    (fun s op =>
      match op with
      | .inc => s.increment_connections
      | .dec => s.decrement_connections)
    s

/-! ## Iterated runs of the two deterministic pickers

The balancers are stateful; the claims quantify over consecutive calls, so we
iterate the embedded step functions from the freshly-constructed state. -/

/-- The eligible set used by `RoundRobinBalancer::select_server`. -/
def rrE (servers : List ServerState) : List ServerState :=
  servers.filter ServerState.is_available

/-- The backup set used by `RoundRobinBalancer::select_server` when no
server is available: backup servers whose status is Up. -/
def rrB (servers : List ServerState) : List ServerState :=
  servers.filter fun s => s.is_backup && s.status == ServerStatus.up

/-- The round-robin balancer's `current_index` after `t` calls on a fixed
server list, starting from `RoundRobinBalancer::new` (index 0). -/
def rrRun (servers : List ServerState) : Nat → Nat
  | 0 => 0
  | t + 1 => (rrSelectServer servers (rrRun servers t)).2

/-- The server returned by the round-robin balancer's call number `t`
(0-based). -/
def rrSelAt (servers : List ServerState) (t : Nat) : Option ServerState :=
  (rrSelectServer servers (rrRun servers t)).1

/-- How many of the `len` round-robin calls numbered `t0, …, t0+len-1` select
the eligible server at position `i` (the index the balancer stores after the
call). -/
def rrSelCount (servers : List ServerState) (t0 len i : Nat) : Nat :=
  ((Finset.range len).filter
    (fun d => rrRun servers (t0 + d + 1) = i)).card

/-- The eligible set used by `WeightedRoundRobinBalancer::select_server`. -/
def wrrE (servers : List ServerState) : List ServerState :=
  servers.filter wrrFilter

/-- Number of eligible servers. -/
def wrrN (servers : List ServerState) : Nat :=
  (wrrE servers).length

/-- Weight of the eligible server at position `i`. -/
def wrrWeightAt (servers : List ServerState) (i : Nat) : Nat :=
  ((wrrE servers).getD i default).weight

/-- The gcd the weighted balancer computes (a function of the stable server
list only). -/
def wrrG (servers : List ServerState) : Nat :=
  calculateGcdOfWeights servers

/-- The maximal eligible weight the weighted balancer computes. -/
def wrrM (servers : List ServerState) : Nat :=
  (((wrrE servers).map (·.weight)).max?).getD 1

/-- Number of distinct `current_weight` levels (`max / gcd`). -/
def wrrP (servers : List ServerState) : Nat :=
  wrrM servers / wrrG servers

/-- Length of one full examination cycle of the weighted balancer's inner
loop: each of the `wrrN` positions is examined once per weight level. -/
def wrrL (servers : List ServerState) : Nat :=
  wrrN servers * wrrP servers

/-- The value of `current_weight` on entering the loop iteration that
examines schedule position `p` (position `p` is the `p`-th iteration of the
inner loop across all calls). -/
def entryCw (servers : List ServerState) (p : Nat) : Nat :=
  wrrM servers - wrrG servers * ((p / wrrN servers) % wrrP servers)

/-- The index examined at schedule position `p`: the loop advances the index
before testing, so position `p` examines `(1 + p) mod n`. -/
def exIdx (servers : List ServerState) (p : Nat) : Nat :=
  (1 + p) % wrrN servers

/-- The value of `current_weight` when the guard at schedule position `p` is
tested (equal to the entry weight of position `p + 1`). -/
def exCw (servers : List ServerState) (p : Nat) : Nat :=
  entryCw servers (p + 1)

/-- Whether the guard at schedule position `p` succeeds: the examined
server's weight is at least the current weight. -/
def hitB (servers : List ServerState) (p : Nat) : Bool :=
  decide (exCw servers p ≤ wrrWeightAt servers (exIdx servers p))

/-- Fuelled search for the first schedule position at or after `p` whose
guard succeeds. -/
def findHitAux (servers : List ServerState) : Nat → Nat → Nat
  | 0, p => p
  | fuel + 1, p => if hitB servers p then p else findHitAux servers fuel (p + 1)

/-- The first schedule position at or after `p` whose guard succeeds (a
guard succeeds at least every `wrrN` positions, so fuel `wrrN` is enough). -/
def nextHit (servers : List ServerState) (p : Nat) : Nat :=
  findHitAux servers (wrrN servers) p

/-- The schedule position at which call number `t` of the weighted balancer
returns. -/
def selPos (servers : List ServerState) : Nat → Nat
  | 0 => nextHit servers 0
  | t + 1 => nextHit servers (selPos servers t + 1)

/-- Number of schedule positions below `x` whose guard succeeds. -/
def hitsBelow (servers : List ServerState) (x : Nat) : Nat :=
  ((Finset.range x).filter (fun j => hitB servers j = true)).card

/-- Number of guard successes in one full examination cycle (this is the
number of selections after which the weighted balancer's state repeats). -/
def wrrT (servers : List ServerState) : Nat :=
  ((Finset.range (wrrL servers)).filter (fun j => hitB servers j = true)).card

/-- The weighted balancer's state after `t` calls on a fixed server list,
starting from `WeightedRoundRobinBalancer::new`, running each call's inner
loop with fuel `wrrN` (shown sufficient). -/
def wrrRun (servers : List ServerState) : Nat → WrrState
  | 0 => WrrState.new
  | t + 1 => (wrrSelectServer servers (wrrRun servers t) (wrrN servers)).2

/-- The server returned by the weighted balancer's call number `t`
(0-based). -/
def wrrSelAt (servers : List ServerState) (t : Nat) : Option ServerState :=
  (wrrSelectServer servers (wrrRun servers t) (wrrN servers)).1

/-- Sum of the eligible servers' weights. -/
def wrrS (servers : List ServerState) : Nat :=
  ∑ i ∈ Finset.range (wrrN servers), wrrWeightAt servers i

/-- How many of the `len` weighted-round-robin calls numbered
`t0, …, t0+len-1` select the eligible server at position `i` (the index the
balancer stores after the call). -/
def wrrSelCount (servers : List ServerState) (t0 len i : Nat) : Nat :=
  ((Finset.range len).filter
    (fun d => (wrrRun servers (t0 + d + 1)).current_index = i)).card

/-! ## Concrete inputs used by counterexamples and witnesses -/

/-- A plain server configuration used to build concrete examples. -/
def baseServerConfig : ServerConfig where
  name := "s"
  address := "127.0.0.1"
  port := 8080
  weight := some 1
  maxconn := none
  check := none
  inter := none
  rise := none
  fall := none
  backup := none
  disabled := none

/-- An available weight-1 server named s1. -/
def srvA : ServerState :=
  ServerState.new { baseServerConfig with name := "s1" }

/-- An available weight-1 server named s2. -/
def srvB : ServerState :=
  ServerState.new { baseServerConfig with name := "s2" }

/-- An available weight-2 server. -/
def srvW2 : ServerState :=
  ServerState.new { baseServerConfig with name := "w2", weight := some 2 }

/-- An available weight-1 server. -/
def srvW1 : ServerState :=
  ServerState.new { baseServerConfig with name := "w1", weight := some 1 }

/-- An Up backup server (not eligible as a primary). -/
def srvBackup : ServerState :=
  ServerState.new { baseServerConfig with name := "b1", backup := some true }

/-- A concrete client address. -/
def addrEx : SocketAddr where
  ip := .v4 167772165
  port := 12345

/-- A frontend with two conditioned `use_backend` rules after an
unconditioned one, and a default backend. -/
def fcRules : FrontendConfig where
  name := "fe"
  bind := []
  mode := none
  default_backend := some "bdef"
  acl := []
  use_backend := [⟨"b1", none⟩, ⟨"b2", some "cond1"⟩, ⟨"b3", some "cond2"⟩]
  option := []

/-- A frontend with no ACLs and no rules, only a default backend. -/
def fcPlain : FrontendConfig where
  name := "fe"
  bind := []
  mode := none
  default_backend := some "be"
  acl := []
  use_backend := []
  option := []

/-- A hostname ACL (an L7 criterion). -/
def aclHost : AclConfig where
  name := "ex_host"
  criterion := "host example.com"

/-- A DDoS configuration whose whitelist and blacklist both contain the same
address. -/
def ddosBothCfg : DdosConfig where
  reset_interval_seconds := 60
  max_requests_per_minute := some 10
  max_connections_per_ip := some 5
  suspicious_patterns := []
  whitelist := [.v4 1]
  blacklist := [.v4 1]

/-! # Theorems -/

/-! ## The health-check state machine -/

/-- After any single probe, at least one of the two consecutive counters is
zero (the probe zeroes the opposite counter). -/
theorem checkServerHealth_one_counter_zero (ok : Bool) (rise fall : Nat)
    (h : HealthState) :
    (checkServerHealth ok rise fall h).consecutive_successes = 0 ∨
    (checkServerHealth ok rise fall h).consecutive_failures = 0 := by
  cases ok <;> simp only [checkServerHealth, Bool.false_eq_true, if_false,
    if_true, reduceIte] <;> split_ifs <;> simp

/-- The one-counter-zero property is preserved along any probe sequence. -/
theorem runHealthChecks_one_counter_zero (rise fall : Nat)
    (results : List Bool) (h : HealthState)
    (hh : h.consecutive_successes = 0 ∨ h.consecutive_failures = 0) :
    (runHealthChecks rise fall results h).consecutive_successes = 0 ∨
    (runHealthChecks rise fall results h).consecutive_failures = 0 := by
  induction results generalizing h with
  | nil => exact hh
  | cons r rest ih =>
    exact ih (checkServerHealth r rise fall h)
      (checkServerHealth_one_counter_zero r rise fall h)

/-- C3: for every checked server, a probe success sets
`consecutive_successes += 1` and `consecutive_failures := 0` and moves the
status to Up exactly when the status was not Up and the new success count has
reached `rise`; symmetrically for a failure with `fall` and Down; and along
any probe sequence from the initial state the two counters are never both
positive. -/
theorem health_probe_state_machine :
    (∀ (rise fall : Nat) (h : HealthState),
      (checkServerHealth true rise fall h).consecutive_successes
          = h.consecutive_successes + 1 ∧
      (checkServerHealth true rise fall h).consecutive_failures = 0 ∧
      (checkServerHealth true rise fall h).status =
        (if h.status ≠ ServerStatus.up ∧ rise ≤ h.consecutive_successes + 1
         then ServerStatus.up else h.status)) ∧
    (∀ (rise fall : Nat) (h : HealthState),
      (checkServerHealth false rise fall h).consecutive_failures
          = h.consecutive_failures + 1 ∧
      (checkServerHealth false rise fall h).consecutive_successes = 0 ∧
      (checkServerHealth false rise fall h).status =
        (if h.status ≠ ServerStatus.down ∧ fall ≤ h.consecutive_failures + 1
         then ServerStatus.down else h.status)) ∧
    (∀ (rise fall : Nat) (results : List Bool),
      (runHealthChecks rise fall results HealthState.init).consecutive_successes
          = 0 ∨
      (runHealthChecks rise fall results HealthState.init).consecutive_failures
          = 0) := by
  refine ⟨fun rise fall h => ⟨?_, ?_, ?_⟩, fun rise fall h => ⟨?_, ?_, ?_⟩,
    fun rise fall results =>
      runHealthChecks_one_counter_zero rise fall results HealthState.init
        (Or.inl rfl)⟩ <;>
    simp only [checkServerHealth, if_true, reduceIte] <;>
    split_ifs <;> simp_all

/-! ## The accept loop's global connection cap -/

/-- Incrementing a frontend's entry adds exactly one to the total. -/
theorem sumConns_mapIncr (k : String) (l : FrontendConns) :
    sumConns (mapIncr k l) = sumConns l + 1 := by
  induction l with
  | nil => rfl
  | cons p rest ih =>
    obtain ⟨k', v⟩ := p
    by_cases hk : k' = k <;>
      simp only [mapIncr, hk, if_true, if_false, reduceIte, sumConns,
        List.map_cons, List.sum_cons] <;>
      simp only [sumConns] at ih <;> omega

/-- The saturating decrement never increases the total. -/
theorem sumConns_mapDecr_le (k : String) (l : FrontendConns) :
    sumConns (mapDecr k l) ≤ sumConns l := by
  induction l with
  | nil => exact Nat.le_refl _
  | cons p rest ih =>
    obtain ⟨k', v⟩ := p
    by_cases hk : k' = k <;>
      simp only [mapDecr, hk, if_true, if_false, reduceIte, sumConns,
        List.map_cons, List.sum_cons] <;>
      simp only [sumConns] at ih <;> omega

/-- One accept or finish event keeps the total within the cap. -/
theorem applyConnEvent_le (global : GlobalConfig) (conns : FrontendConns)
    (e : ConnTraceEvent)
    (hc : sumConns conns ≤ globalMaxconn global.maxconn) :
    sumConns (applyConnEvent global conns e) ≤ globalMaxconn global.maxconn := by
  cases e with
  | accepted f =>
    simp only [applyConnEvent, acceptStep]
    split_ifs with h
    · exact hc
    · rw [sumConns_mapIncr]; omega
  | finished f =>
    exact Nat.le_trans (sumConns_mapDecr_le f conns) hc

/-- The cap is an inductive invariant of event traces. -/
theorem foldl_connEvents_le (global : GlobalConfig) (evs : List ConnTraceEvent)
    (conns : FrontendConns)
    (hc : sumConns conns ≤ globalMaxconn global.maxconn) :
    sumConns (evs.foldl (applyConnEvent global) conns)
      ≤ globalMaxconn global.maxconn := by
  induction evs generalizing conns with
  | nil => exact hc
  | cons e rest ih =>
    exact ih (applyConnEvent global conns e) (applyConnEvent_le global conns e hc)

/-- C4: an accept-loop iteration spawns a handler exactly when the sum of
active connections over all frontends is strictly below
`global.maxconn.unwrap_or(4096)`; when the sum has reached the cap the
connection is rejected and the map is untouched (so no handler and no
upstream dial happens); consequently, along any trace of accepts and handler
completions the total never exceeds the cap; and the default cap is 4096. -/
theorem accept_loop_global_cap :
    (∀ (global : GlobalConfig) (f : String) (conns : FrontendConns),
      (acceptStep global f conns).1 = true ↔
        sumConns conns < globalMaxconn global.maxconn) ∧
    (∀ (global : GlobalConfig) (f : String) (conns : FrontendConns),
      (acceptStep global f conns).2 =
        if sumConns conns < globalMaxconn global.maxconn
        then mapIncr f conns else conns) ∧
    (∀ (global : GlobalConfig) (evs : List ConnTraceEvent),
      sumConns (runConnEvents global evs) ≤ globalMaxconn global.maxconn) ∧
    globalMaxconn none = 4096 ∧
    GlobalConfig.default.maxconn = some 4096 := by
  refine ⟨fun global f conns => ?_, fun global f conns => ?_,
    fun global evs =>
      foldl_connEvents_le global evs [] (Nat.zero_le _), rfl, rfl⟩ <;>
    (simp only [acceptStep]; split_ifs <;> simp_all <;> omega)

/-! ## Connection counters never go negative -/

/-- Increments and guarded decrements keep the per-server counter
non-negative. -/
theorem runConnOps_nonneg (s : ServerState) (ops : List ConnOp)
    (hs : 0 ≤ s.active_connections) :
    0 ≤ (runConnOps s ops).active_connections := by
  induction ops generalizing s with
  | nil => exact hs
  | cons op rest ih =>
    cases op with
    | inc =>
      exact ih s.increment_connections
        (by simp only [ServerState.increment_connections]; omega)
    | dec =>
      refine ih s.decrement_connections ?_
      simp only [ServerState.decrement_connections]
      split_ifs with h
      · show 0 ≤ s.active_connections - 1
        omega
      · exact hs

/-- Lookup after insert: the inserted key sees the new value, other keys are
unchanged. -/
theorem alLookup_alInsert (m : ActivityMap) (k k' : IpAddr) (v : IpActivity) :
    alLookup (alInsert m k v) k' = if k' = k then some v else alLookup m k' := by
  induction m with
  | nil =>
    by_cases h : k' = k
    · subst h; simp [alInsert, alLookup]
    · have h2 : ¬(k = k') := fun hh => h hh.symm
      simp [alInsert, alLookup, h, h2]
  | cons p rest ih =>
    obtain ⟨k₀, v₀⟩ := p
    simp only [alInsert]
    by_cases h0 : k₀ = k
    · subst h0
      simp only [if_pos rfl]
      by_cases h : k' = k₀
      · subst h; simp [alLookup]
      · have h2 : ¬(k₀ = k') := fun hh => h hh.symm
        simp [alLookup, h, h2]
    · simp only [if_neg h0]
      by_cases h1 : k₀ = k'
      · subst h1
        simp [alLookup, h0]
      · simp only [alLookup, if_neg h1]
        exact ih

/-- The rate-limit check either leaves the map alone or inserts one entry
for the checked IP whose connection count it did not touch. -/
theorem check_rate_limit_activity (config : DdosConfig) (m : ActivityMap)
    (ip0 : IpAddr) (now : Nat) :
    (DdosProtection.check_rate_limit config m ip0 now).2 = m ∨
    ∃ a : IpActivity,
      (DdosProtection.check_rate_limit config m ip0 now).2 = alInsert m ip0 a ∧
      a.connection_count =
        ((alLookup m ip0).getD (IpActivity.init now)).connection_count := by
  unfold DdosProtection.check_rate_limit
  by_cases hw : config.whitelist.contains ip0 = true
  · rw [if_pos hw]; exact Or.inl rfl
  · rw [if_neg hw]
    by_cases hb : config.blacklist.contains ip0 = true
    · rw [if_pos hb]; exact Or.inl rfl
    · rw [if_neg hb]
      cases hmr : config.max_requests_per_minute with
      | none => exact Or.inr ⟨_, rfl, rfl⟩
      | some mr =>
        dsimp only
        split_ifs <;> exact Or.inr ⟨_, rfl, rfl⟩

/-- The connection-limit check either leaves the map alone or inserts one
entry for the checked IP whose connection count equals the previous one or
that plus one. -/
theorem check_connection_limit_activity (config : DdosConfig)
    (m : ActivityMap) (ip0 : IpAddr) (now : Nat) :
    (DdosProtection.check_connection_limit config m ip0 now).2 = m ∨
    ∃ a : IpActivity,
      (DdosProtection.check_connection_limit config m ip0 now).2
          = alInsert m ip0 a ∧
      (a.connection_count =
        ((alLookup m ip0).getD (IpActivity.init now)).connection_count ∨
       a.connection_count =
        ((alLookup m ip0).getD (IpActivity.init now)).connection_count + 1) := by
  unfold DdosProtection.check_connection_limit
  by_cases hw : config.whitelist.contains ip0 = true
  · rw [if_pos hw]; exact Or.inl rfl
  · rw [if_neg hw]
    by_cases hb : config.blacklist.contains ip0 = true
    · rw [if_pos hb]; exact Or.inl rfl
    · rw [if_neg hb]
      cases hmc : config.max_connections_per_ip with
      | none => exact Or.inr ⟨_, rfl, Or.inl rfl⟩
      | some mc =>
        dsimp only
        split_ifs
        · exact Or.inr ⟨_, rfl, Or.inl rfl⟩
        · exact Or.inr ⟨_, rfl, Or.inr rfl⟩

/-- `connection_closed` either leaves the map alone or replaces the entry of
the closed IP by one with the count decremented from a positive value. -/
theorem connection_closed_activity (m : ActivityMap) (ip0 : IpAddr) :
    DdosProtection.connection_closed m ip0 = m ∨
    ∃ a : IpActivity, alLookup m ip0 = some a ∧ 0 < a.connection_count ∧
      DdosProtection.connection_closed m ip0 =
        alInsert m ip0 { a with connection_count := a.connection_count - 1 } := by
  unfold DdosProtection.connection_closed
  cases hl : alLookup m ip0 with
  | none => exact Or.inl rfl
  | some a =>
    by_cases hp : 0 < a.connection_count
    · refine Or.inr ⟨a, rfl, hp, ?_⟩
      dsimp only
      rw [if_pos hp]
    · refine Or.inl ?_
      dsimp only
      rw [if_neg hp]

/-- A single DDoS-protection operation preserves non-negativity of every
per-IP connection count. -/
theorem applyDdosEvent_nonneg (config : DdosConfig) (m : ActivityMap)
    (e : DdosEvent)
    (hm : ∀ ip act, alLookup m ip = some act → 0 ≤ act.connection_count) :
    ∀ ip act, alLookup (applyDdosEvent config m e) ip = some act →
      0 ≤ act.connection_count := by
  have base : ∀ ip now,
      0 ≤ ((alLookup m ip).getD (IpActivity.init now)).connection_count := by
    intro ip now
    cases h : alLookup m ip with
    | none => simp [IpActivity.init]
    | some a => simpa using hm ip a h
  have hins : ∀ (ip0 : IpAddr) (a : IpActivity), 0 ≤ a.connection_count →
      ∀ ip act, alLookup (alInsert m ip0 a) ip = some act →
        0 ≤ act.connection_count := by
    intro ip0 a ha ip act hl
    rw [alLookup_alInsert] at hl
    split_ifs at hl with h
    · cases hl; exact ha
    · exact hm ip act hl
  cases e with
  | rateCheck ip0 now =>
    rcases check_rate_limit_activity config m ip0 now with h | ⟨a, ha, hcc⟩ <;>
      simp only [applyDdosEvent]
    · rw [h]; exact hm
    · rw [ha]; exact hins ip0 a (hcc ▸ base ip0 now)
  | connOpen ip0 now =>
    rcases check_connection_limit_activity config m ip0 now with
        h | ⟨a, ha, hcc⟩ <;>
      simp only [applyDdosEvent]
    · rw [h]; exact hm
    · rw [ha]
      refine hins ip0 a ?_
      have := base ip0 now
      rcases hcc with hcc | hcc <;> omega
  | connClosed ip0 =>
    rcases connection_closed_activity m ip0 with h | ⟨a, hl, hp, heq⟩ <;>
      simp only [applyDdosEvent]
    · rw [h]; exact hm
    · rw [heq]
      refine hins ip0 _ ?_
      show 0 ≤ a.connection_count - 1
      omega

/-- Non-negativity of the per-IP connection counts along any operation
trace. -/
theorem runDdosEvents_nonneg (config : DdosConfig) (evs : List DdosEvent) :
    ∀ ip act, alLookup (runDdosEvents config evs) ip = some act →
      0 ≤ act.connection_count := by
  suffices h : ∀ (evs : List DdosEvent) (m : ActivityMap),
      (∀ ip act, alLookup m ip = some act → 0 ≤ act.connection_count) →
      ∀ ip act, alLookup (evs.foldl (applyDdosEvent config) m) ip = some act →
        0 ≤ act.connection_count by
    exact h evs [] (by intro ip act hl; cases hl)
  intro evs
  induction evs with
  | nil => intro m hm; exact hm
  | cons e rest ih =>
    intro m hm
    exact ih (applyDdosEvent config m e) (applyDdosEvent_nonneg config m e hm)

/-- C9: both live-connection counters stay non-negative — the per-server
`active_connections` under any sequence of increments and guarded decrements,
and every per-IP connection count under any sequence of DDoS-protection
operations — and a decrement hitting a zero counter leaves it at zero (no
underflow), for the server counter and for the per-IP map alike. -/
theorem connection_counters_nonneg :
    (∀ (cfg : ServerConfig) (ops : List ConnOp),
      0 ≤ (runConnOps (ServerState.new cfg) ops).active_connections) ∧
    (∀ s : ServerState, s.active_connections = 0 →
      (s.decrement_connections).active_connections = 0) ∧
    (∀ (config : DdosConfig) (evs : List DdosEvent) (ip : IpAddr)
        (act : IpActivity),
      alLookup (runDdosEvents config evs) ip = some act →
      0 ≤ act.connection_count) ∧
    (∀ (activity : ActivityMap) (ip : IpAddr) (act : IpActivity),
      alLookup activity ip = some act → act.connection_count = 0 →
      DdosProtection.connection_closed activity ip = activity) := by
  refine ⟨fun cfg ops => runConnOps_nonneg _ ops (by simp [ServerState.new]),
    fun s hs => ?_,
    fun config evs ip act h => runDdosEvents_nonneg config evs ip act h,
    fun activity ip act hl hz => ?_⟩
  · simp [ServerState.decrement_connections, hs]
  · simp only [DdosProtection.connection_closed, hl, hz]
    norm_num

/-- Witness for the non-negativity theorem at concrete inputs: a decrement on
the fresh (zero) counter, and a closed event on a zero per-IP entry, leave
both at zero. -/
theorem connection_counters_nonneg_witness :
    (0 ≤ (runConnOps (ServerState.new baseServerConfig) [ConnOp.dec]).active_connections) ∧
    ((ServerState.new baseServerConfig).decrement_connections).active_connections = 0 ∧
    DdosProtection.connection_closed [(IpAddr.v4 1, IpActivity.init 0)]
        (IpAddr.v4 1) = [(IpAddr.v4 1, IpActivity.init 0)] :=
  ⟨connection_counters_nonneg.1 baseServerConfig [ConnOp.dec],
   connection_counters_nonneg.2.1 (ServerState.new baseServerConfig) rfl,
   connection_counters_nonneg.2.2.2 [(IpAddr.v4 1, IpActivity.init 0)]
     (IpAddr.v4 1) (IpActivity.init 0) (by simp [alLookup]) rfl⟩

/-! ## Whitelist runs before blacklist -/

/-- C10: a client IP on the whitelist passes both the rate-limit check and
the connection-limit check with no state change, regardless of the blacklist
(the whitelist test runs first and short-circuits the blacklist test). -/
theorem whitelist_short_circuits_blacklist (config : DdosConfig)
    (activity : ActivityMap) (ip : IpAddr) (now : Nat)
    (hw : ip ∈ config.whitelist) :
    (DdosProtection.check_rate_limit config activity ip now).1 = true ∧
    (DdosProtection.check_connection_limit config activity ip now).1 = true ∧
    (DdosProtection.check_rate_limit config activity ip now).2 = activity ∧
    (DdosProtection.check_connection_limit config activity ip now).2 = activity := by
  have hc : config.whitelist.contains ip = true := by
    simpa using hw
  simp [DdosProtection.check_rate_limit, DdosProtection.check_connection_limit,
    hc, hw]

/-! ## Backend selection -/

/-- When every attached ACL permits the client, the ACL gate passes. -/
theorem checkAcls_ok (acls : List AclConfig) (addr : SocketAddr)
    (h : ∀ a ∈ acls, ProxyServer.evaluateAcl a addr = Except.ok true) :
    ProxyServer.checkAcls acls addr = Except.ok () := by
  induction acls with
  | nil => rfl
  | cons a rest ih =>
    simp only [ProxyServer.checkAcls, h a (List.mem_cons_self a rest)]
    exact ih fun a' ha' => h a' (List.mem_cons_of_mem a ha')

/-- The `use_backend` loop returns the first rule whose condition evaluates
to true (skipping condition-less rules), as a `find?` over the rule list. -/
theorem findUseBackend_eq (rules : List UseBackendConfig) (addr : SocketAddr) :
    ProxyServer.findUseBackend rules addr =
      Except.ok ((rules.find? fun ub =>
        match ub.condition with
        | some c =>
          match ProxyServer.evaluateCondition c addr with
          | .ok b => b
          | .error _ => false
        | none => false).map (·.backend)) := by
  induction rules with
  | nil => rfl
  | cons ub rest ih =>
    cases hc : ub.condition with
    | none =>
      rw [List.find?_cons_of_neg _ (by simp [hc])]
      simp only [ProxyServer.findUseBackend, hc]
      exact ih
    | some c =>
      rw [List.find?_cons_of_pos _ (by simp [hc, ProxyServer.evaluateCondition])]
      simp [ProxyServer.findUseBackend, hc, ProxyServer.evaluateCondition]

/-- C5: for a connection that passes the frontend's ACL gate, backend
selection walks the `use_backend` rules in order and returns the backend of
the first rule whose condition predicate holds for the client address; when
no rule's condition holds, `default_backend` is returned; when that is also
absent, the connection is rejected with an error. -/
theorem select_backend_first_match (fc : FrontendConfig) (addr : SocketAddr)
    (hacl : ∀ a ∈ fc.acl, ProxyServer.evaluateAcl a addr = Except.ok true) :
    ProxyServer.selectBackend fc addr =
      match fc.use_backend.find? (fun ub =>
        match ub.condition with
        | some c =>
          match ProxyServer.evaluateCondition c addr with
          | .ok b => b
          | .error _ => false
        | none => false) with
      | some ub => Except.ok ub.backend
      | none =>
        match fc.default_backend with
        | some b => Except.ok b
        | none =>
          Except.error ("No backend selected for frontend " ++ fc.name) := by
  simp only [ProxyServer.selectBackend, checkAcls_ok fc.acl addr hacl,
    findUseBackend_eq fc.use_backend addr]
  cases hf : fc.use_backend.find? _ with
  | some ub => simp
  | none => cases hd : fc.default_backend <;> simp

/-- Witness: on a frontend with no ACLs, a condition-less first rule, and two
conditioned rules, the second rule (the first one with a condition) wins. -/
theorem select_backend_first_match_witness :
    ProxyServer.selectBackend fcRules addrEx = Except.ok "b2" :=
  (select_backend_first_match fcRules addrEx
    (by intro a ha; simp [fcRules] at ha)).trans (by rfl)

/-! ## L4 evaluation of ACL conditions -/

/-- C8 counterexample: at L4 the proxy evaluates ACLs with no request data,
and then a hostname condition evaluates to false (deny), not true — a
connection gated by the concrete ACL `host example.com` is denied. -/
theorem l4_hostname_acl_denies :
    Acl.evaluateCondition (.hostname "example.com") addrEx none
        = Except.ok false ∧
    Acl.fromConfig aclHost
        = Except.ok ⟨"ex_host", [.hostname "example.com"]⟩ ∧
    ProxyServer.evaluateAcl aclHost addrEx = Except.ok false := by
  refine ⟨rfl, rfl, rfl⟩

/-- C8 amended: at L4 (request data absent), destination-port conditions and
unknown (`custom`) criteria evaluate to true for every connection, while
hostname, path and header conditions evaluate to false (deny) for every
connection, regardless of the client address. -/
theorem l4_acl_condition_values (addr : SocketAddr) :
    (∀ p, Acl.evaluateCondition (.destinationPort p) addr none
        = Except.ok true) ∧
    (∀ c, Acl.evaluateCondition (.custom c) addr none = Except.ok true) ∧
    (∀ h, Acl.evaluateCondition (.hostname h) addr none = Except.ok false) ∧
    (∀ p, Acl.evaluateCondition (.pathCond p) addr none = Except.ok false) ∧
    (∀ n v, Acl.evaluateCondition (.header n v) addr none = Except.ok false) :=
  ⟨fun _ => rfl, fun _ => rfl, fun _ => rfl, fun _ => rfl, fun _ _ => rfl⟩

/-! ## The handler and the connection counters -/

/-- C7 counterexample: a connection carried through the dial step (and the
full successful proxy) never sees its chosen server's `active_connections`
incremented or decremented — the handler performs no per-server counter
update at all. -/
theorem handler_no_server_counter_update :
    HandlerEvent.dialUpstream "s1" ∈
      (handleConnection fcPlain addrEx
        (some { baseServerConfig with name := "s1" }) true true).2 ∧
    HandlerEvent.incrementServerConnections "s1" ∉
      (handleConnection fcPlain addrEx
        (some { baseServerConfig with name := "s1" }) true true).2 ∧
    HandlerEvent.decrementServerConnections "s1" ∉
      (handleConnection fcPlain addrEx
        (some { baseServerConfig with name := "s1" }) true true).2 := by
  decide

/-- C7 amended: the handler trace never contains a per-server counter
increment or decrement (for any frontend, client, selection or outcome); the
counter that brackets the connection is the per-frontend one — when the
accept check admits the connection, the per-frontend entry is incremented
before the handler runs and decremented at handler exit, on success and
failure alike, and otherwise the map is untouched. -/
theorem frontend_counter_lifecycle :
    (∀ (fc : FrontendConfig) (addr : SocketAddr) (ssel : Option ServerConfig)
        (dOk pOk : Bool) (s : String),
      HandlerEvent.incrementServerConnections s ∉
        (handleConnection fc addr ssel dOk pOk).2 ∧
      HandlerEvent.decrementServerConnections s ∉
        (handleConnection fc addr ssel dOk pOk).2) ∧
    (∀ (global : GlobalConfig) (f : String) (fc : FrontendConfig)
        (addr : SocketAddr) (ssel : Option ServerConfig) (dOk pOk : Bool)
        (conns : FrontendConns),
      (connectionLifecycle global f fc addr ssel dOk pOk conns).1 =
        if (acceptStep global f conns).1 = true
        then handlerExit f (mapIncr f conns) else conns) := by
  constructor
  · intro fc addr ssel dOk pOk s
    unfold handleConnection
    cases ProxyServer.selectBackend fc addr with
    | error e => simp
    | ok b =>
      cases ssel with
      | none => simp
      | some server => cases dOk <;> cases pOk <;> simp
  · intro global f fc addr ssel dOk pOk conns
    simp only [connectionLifecycle, acceptStep]
    split_ifs <;> simp_all

/-- Witness for the lifecycle theorem: a failing proxy run still has no
per-server counter events, and an admitted connection's per-frontend count
returns to zero after the handler exits. -/
theorem frontend_counter_lifecycle_witness :
    (HandlerEvent.incrementServerConnections "s1" ∉
      (handleConnection fcPlain addrEx
        (some { baseServerConfig with name := "s1" }) true false).2) ∧
    (connectionLifecycle { GlobalConfig.default with maxconn := some 1 } "fe"
        fcPlain addrEx none true true []).1 = [("fe", 0)] :=
  ⟨(frontend_counter_lifecycle.1 fcPlain addrEx
      (some { baseServerConfig with name := "s1" }) true false "s1").1,
   (frontend_counter_lifecycle.2 { GlobalConfig.default with maxconn := some 1 }
      "fe" fcPlain addrEx none true true []).trans (by decide)⟩

/-! ## Counting residues in windows -/

/-- The canonical solution of `(a + d) % n = i`. -/
theorem mod_shift_solution (n a i : Nat) (hn : 0 < n) (hi : i < n) :
    (a + (i + n - a % n) % n) % n = i := by
  have hr : a % n < n := Nat.mod_lt _ hn
  have h2 : (a + (i + n - a % n) % n) % n = (a + (i + n - a % n)) % n :=
    (Nat.ModEq.add_left a (Nat.mod_modEq (i + n - a % n) n))
  have hq : n * (a / n) + a % n = a := Nat.div_add_mod a n
  have harith : a + (i + n - a % n) = n * (a / n) + n + i := by omega
  have harith2 : n * (a / n) + n + i = n * (a / n + 1) + i := by ring
  rw [h2, harith, harith2, Nat.mul_add_mod]
  exact Nat.mod_eq_of_lt hi

/-- Two small shifts with the same residue agree. -/
theorem mod_shift_inj (n b x y : Nat) (hx : x < n) (hy : y < n)
    (h : (b + x) % n = (b + y) % n) : x = y := by
  have h' : x % n = y % n := Nat.ModEq.add_left_cancel' b h
  rwa [Nat.mod_eq_of_lt hx, Nat.mod_eq_of_lt hy] at h'

/-- In any row of `n` consecutive integers there is exactly one solution of
`(a + d) % n = i`. -/
theorem one_solution_in_row (n a i c : Nat) (hn : 0 < n) (hi : i < n) :
    ((Finset.Ico c (c + n)).filter (fun d => (a + d) % n = i)).card = 1 := by
  have hoff : (i + n - (a + c) % n) % n < n := Nat.mod_lt _ hn
  have hsol : (a + (c + (i + n - (a + c) % n) % n)) % n = i := by
    have harr : a + (c + (i + n - (a + c) % n) % n)
        = (a + c) + (i + n - (a + c) % n) % n := by omega
    rw [harr]
    exact mod_shift_solution n (a + c) i hn hi
  rw [Finset.card_eq_one]
  refine ⟨c + (i + n - (a + c) % n) % n, ?_⟩
  ext d
  simp only [Finset.mem_filter, Finset.mem_Ico, Finset.mem_singleton]
  constructor
  · rintro ⟨⟨hcd, hdlt⟩, hmod⟩
    have hx : d - c < n := by omega
    have hdc : (a + c) + (d - c) = a + d := by omega
    have hdc0 : (a + c) + (i + n - (a + c) % n) % n
        = a + (c + (i + n - (a + c) % n) % n) := by omega
    have heq : ((a + c) + (d - c)) % n
        = ((a + c) + (i + n - (a + c) % n) % n) % n := by
      rw [hdc, hdc0, hmod, hsol]
    have := mod_shift_inj n (a + c) (d - c) ((i + n - (a + c) % n) % n)
      hx hoff heq
    omega
  · rintro rfl
    exact ⟨⟨Nat.le_add_right _ _, by omega⟩, hsol⟩

/-- In any window of `k * n` consecutive integers there are exactly `k`
solutions of `(a + d) % n = i`. -/
theorem count_mod_window (n a i : Nat) (hn : 0 < n) (hi : i < n) (k : Nat) :
    ((Finset.range (k * n)).filter (fun d => (a + d) % n = i)).card = k := by
  induction k with
  | zero => simp
  | succ k ih =>
    have hsplit : Finset.range ((k + 1) * n) =
        Finset.range (k * n) ∪ Finset.Ico (k * n) (k * n + n) := by
      rw [Finset.range_eq_Ico,
        Finset.Ico_union_Ico_eq_Ico (Nat.zero_le _) (Nat.le_add_right _ _)]
      congr 1
      ring
    have hdisj : Disjoint
        ((Finset.range (k * n)).filter (fun d => (a + d) % n = i))
        ((Finset.Ico (k * n) (k * n + n)).filter (fun d => (a + d) % n = i)) := by
      rw [Finset.disjoint_left]
      intro d hd1 hd2
      have h1 := Finset.mem_range.mp (Finset.mem_filter.mp hd1).1
      have h2 := (Finset.mem_Ico.mp (Finset.mem_filter.mp hd2).1).1
      omega
    rw [hsplit, Finset.filter_union, Finset.card_union_of_disjoint hdisj, ih,
      one_solution_in_row n a i (k * n) hn hi]

/-! ## The plain round-robin picker -/

/-- A `getD` at an in-range index is a member of the list. -/
theorem getD_mem_of_lt {α : Type} [Inhabited α] (l : List α) (i : Nat)
    (h : i < l.length) : l.getD i default ∈ l := by
  rw [List.getD_eq_getElem l default h]
  exact List.getElem_mem h

/-- With at least one available server, `RoundRobinBalancer::select_server`
advances the index modulo the size of the eligible set and returns the
element at the *new* index. -/
theorem rrSelect_of_available (servers : List ServerState) (i : Nat)
    (hE : rrE servers ≠ []) :
    rrSelectServer servers i =
      (some ((rrE servers).getD ((i + 1) % (rrE servers).length) default),
       (i + 1) % (rrE servers).length) := by
  have hs : servers.isEmpty = false := by
    cases servers with
    | nil => exact absurd rfl hE
    | cons a l => rfl
  have hE' : (servers.filter ServerState.is_available).isEmpty = false := by
    have : rrE servers ≠ [] := hE
    rw [rrE] at this
    cases hc : servers.filter ServerState.is_available with
    | nil => exact absurd hc this
    | cons a l => rfl
  simp only [rrSelectServer, hs, hE', Bool.false_eq_true, if_false, reduceIte]
  rfl

/-- With no available server but a non-empty Up backup set, the round-robin
picker selects from the backup set the same way. -/
theorem rrSelect_of_backup (servers : List ServerState) (i : Nat)
    (hE : rrE servers = []) (hB : rrB servers ≠ []) :
    rrSelectServer servers i =
      (some ((rrB servers).getD ((i + 1) % (rrB servers).length) default),
       (i + 1) % (rrB servers).length) := by
  have hs : servers.isEmpty = false := by
    cases servers with
    | nil => exact absurd rfl hB
    | cons a l => rfl
  have hE' : (servers.filter ServerState.is_available).isEmpty = true := by
    rw [rrE] at hE
    rw [hE]
    rfl
  have hB' : (servers.filter fun s =>
      s.is_backup && s.status == ServerStatus.up).isEmpty = false := by
    have : rrB servers ≠ [] := hB
    rw [rrB] at this
    cases hc : servers.filter fun s => s.is_backup && s.status == ServerStatus.up with
    | nil => exact absurd hc this
    | cons a l => rfl
  simp only [rrSelectServer, hs, hE', hB', Bool.false_eq_true, if_false,
    if_true, reduceIte]
  rfl

/-- With neither available nor Up backup servers, the round-robin picker
returns `none` and leaves its index alone. -/
theorem rrSelect_none (servers : List ServerState) (i : Nat)
    (hE : rrE servers = []) (hB : rrB servers = []) :
    rrSelectServer servers i = (none, i) := by
  cases hs : servers with
  | nil => rfl
  | cons a l =>
    rw [← hs]
    have hs' : servers.isEmpty = false := by rw [hs]; rfl
    have hE' : (servers.filter ServerState.is_available).isEmpty = true := by
      rw [rrE] at hE; rw [hE]; rfl
    have hB' : (servers.filter fun s =>
        s.is_backup && s.status == ServerStatus.up).isEmpty = true := by
      rw [rrB] at hB; rw [hB]; rfl
    simp only [rrSelectServer, hs', hE', hB', Bool.false_eq_true, if_false,
      if_true, reduceIte]

/-- The weighted balancer returns `none` when its eligible set is empty
(without consulting the backup set). -/
theorem wrrSelect_of_empty (servers : List ServerState) (st : WrrState)
    (fuel : Nat) (h : wrrE servers = []) :
    wrrSelectServer servers st fuel = (none, st) := by
  have h' : (servers.filter wrrFilter).isEmpty = true := by
    rw [wrrE] at h; rw [h]; rfl
  simp only [wrrSelectServer, h', if_true, reduceIte]

/-- The least-connection balancer returns `none` when the eligible set is
empty (without consulting the backup set). -/
theorem lcSelect_of_empty (servers : List ServerState) (rnd : Nat)
    (h : rrE servers = []) :
    lcSelectServer servers rnd = none := by
  have h' : (servers.filter ServerState.is_available).isEmpty = true := by
    rw [rrE] at h; rw [h]; rfl
  simp only [lcSelectServer, h', if_true, reduceIte]

/-- The random balancer returns `none` when the eligible set is empty. -/
theorem randomSelect_of_empty (servers : List ServerState) (rnd : Nat)
    (h : rrE servers = []) :
    randomSelectServer servers rnd = none := by
  have h' : (servers.filter ServerState.is_available).isEmpty = true := by
    rw [rrE] at h; rw [h]; rfl
  simp only [randomSelectServer, h', if_true, reduceIte]

/-- The source-hash balancer returns `none` when the eligible set is
empty. -/
theorem sourceHashSelect_of_empty (servers : List ServerState) (rnd : Nat)
    (h : rrE servers = []) :
    sourceHashSelectServer servers rnd = none := by
  have h' : (servers.filter ServerState.is_available).isEmpty = true := by
    rw [rrE] at h; rw [h]; rfl
  simp only [sourceHashSelectServer, h', if_true, reduceIte]

/-- A member of the round-robin eligible set passes the availability
filter. -/
theorem mem_rrE_available (servers : List ServerState) (s : ServerState)
    (h : s ∈ rrE servers) : s.is_available = true := by
  rw [rrE] at h
  exact (List.mem_filter.mp h).2

/-- The weighted balancer's filter (`is_available && weight > 0`) coincides
with `is_available`, whose last conjunct is already the positive-weight
test: the two eligible sets are equal. -/
theorem wrrE_eq_rrE (servers : List ServerState) :
    wrrE servers = rrE servers := by
  rw [wrrE, rrE]
  apply List.filter_congr
  intro s _
  rw [wrrFilter]
  cases hA : s.is_available with
  | false => rfl
  | true =>
    have hw : decide (0 < s.weight) = true := by
      rw [ServerState.is_available] at hA
      repeat rw [Bool.and_eq_true] at hA
      exact hA.2
    rw [hw]
    rfl

/-- Any server returned by the weighted balancer's inner loop is taken from
the available list (it is always the element at the freshly advanced
in-range index). -/
theorem wrrLoop_mem (available : List ServerState) (g m : Nat)
    (hA : available ≠ []) :
    ∀ (fuel idx cw : Nat) (s : ServerState) (idx2 cw2 : Nat),
    wrrLoop available g m idx cw fuel = some (s, idx2, cw2) →
    s ∈ available := by
  intro fuel
  induction fuel with
  | zero =>
    intro idx cw s idx2 cw2 h
    exact Option.noConfusion h
  | succ fuel ih =>
    intro idx cw s idx2 cw2 h
    simp only [wrrLoop] at h
    repeat' split at h
    all_goals
      first
        | exact ih _ _ _ _ _ h
        | (have hs : available.getD ((idx + 1) % available.length) default
              = s := congrArg Prod.fst (Option.some.inj h)
           rw [← hs]
           exact getD_mem_of_lt _ _ (Nat.mod_lt _ (List.length_pos.mpr hA)))

/-- Any server returned by `WeightedRoundRobinBalancer::select_server` is a
member of its eligible set. -/
theorem wrrSelect_mem (servers : List ServerState) (st : WrrState)
    (fuel : Nat) (s : ServerState)
    (h : (wrrSelectServer servers st fuel).1 = some s) :
    s ∈ wrrE servers := by
  simp only [wrrSelectServer] at h
  by_cases hA : (servers.filter wrrFilter).isEmpty = true
  · rw [if_pos hA] at h
    exact Option.noConfusion h
  · rw [if_neg hA] at h
    have hAne : servers.filter wrrFilter ≠ [] := by
      intro hc
      rw [hc] at hA
      exact hA rfl
    split at h
    · rename_i server idx cw hL
      have hserver : server = s := Option.some.inj h
      rw [wrrE, ← hserver]
      exact wrrLoop_mem _ _ _ hAne _ _ _ _ _ _ hL
    · exact Option.noConfusion h

/-- The least-connection balancer's minimum is attained, so the
minimum-connection sublist of a non-empty available list is non-empty. -/
theorem lcWithMin_ne_nil (available : List ServerState)
    (hA : available ≠ []) :
    available.filter (fun s => s.active_connections ==
      ((available.map (fun s => s.active_connections)).min?.getD 0)) ≠ [] := by
  obtain ⟨a, l, hal⟩ : ∃ a l, available = a :: l := by
    cases hc : available with
    | nil => exact absurd hc hA
    | cons a l => exact ⟨a, l, rfl⟩
  obtain ⟨mc, hmc⟩ : ∃ mc,
      (available.map (fun s => s.active_connections)).min? = some mc := by
    refine ⟨(l.map (fun s => s.active_connections)).foldl min
      a.active_connections, ?_⟩
    rw [hal]
    rfl
  have hmem : mc ∈ available.map (fun s => s.active_connections) :=
    List.min?_mem (fun a b => min_choice a b) hmc
  obtain ⟨s0, hs0A, hs0e⟩ := List.mem_map.mp hmem
  refine List.ne_nil_of_mem (List.mem_filter.mpr ⟨hs0A, ?_⟩)
  rw [hmc]
  show (s0.active_connections == mc) = true
  exact beq_iff_eq.mpr hs0e

/-- Any server returned by `LeastConnectionBalancer::select_server` is a
member of the eligible set (both the unique-minimum and the random
tie-break branch pick from the minimum-connection sublist of the available
list). -/
theorem lcSelect_mem (servers : List ServerState) (rnd : Nat)
    (s : ServerState) (h : lcSelectServer servers rnd = some s) :
    s ∈ rrE servers := by
  simp only [lcSelectServer] at h
  split at h
  · exact Option.noConfusion h
  · rename_i hA
    have hAne : servers.filter ServerState.is_available ≠ [] := by
      intro hc
      rw [hc] at hA
      exact hA rfl
    have hWpos : 0 < ((servers.filter ServerState.is_available).filter
        (fun s => s.active_connections ==
          (((servers.filter ServerState.is_available).map
            (fun s => s.active_connections)).min?.getD 0))).length :=
      List.length_pos.mpr (lcWithMin_ne_nil _ hAne)
    split at h
    · have hs := Option.some.inj h
      rw [rrE, ← hs]
      exact (List.mem_filter.mp (getD_mem_of_lt _ 0 hWpos)).1
    · have hs := Option.some.inj h
      rw [rrE, ← hs]
      exact (List.mem_filter.mp
        (getD_mem_of_lt _ _ (Nat.mod_lt _ hWpos))).1

/-- Any server returned by `RandomBalancer::select_server` is a member of
the eligible set. -/
theorem randomSelect_mem (servers : List ServerState) (rnd : Nat)
    (s : ServerState) (h : randomSelectServer servers rnd = some s) :
    s ∈ rrE servers := by
  simp only [randomSelectServer] at h
  split at h
  · exact Option.noConfusion h
  · rename_i hA
    have hAne : servers.filter ServerState.is_available ≠ [] := by
      intro hc
      rw [hc] at hA
      exact hA rfl
    have hs := Option.some.inj h
    rw [rrE, ← hs]
    exact getD_mem_of_lt _ _ (Nat.mod_lt _ (List.length_pos.mpr hAne))

/-- Any server returned by `SourceHashBalancer::select_server` is a member
of the eligible set. -/
theorem sourceHashSelect_mem (servers : List ServerState) (rnd : Nat)
    (s : ServerState) (h : sourceHashSelectServer servers rnd = some s) :
    s ∈ rrE servers := by
  simp only [sourceHashSelectServer] at h
  split at h
  · exact Option.noConfusion h
  · rename_i hA
    have hAne : servers.filter ServerState.is_available ≠ [] := by
      intro hc
      rw [hc] at hA
      exact hA rfl
    have hs := Option.some.inj h
    rw [rrE, ← hs]
    exact getD_mem_of_lt _ _ (Nat.mod_lt _ (List.length_pos.mpr hAne))

/-- C2 counterexample: for a pool holding one Up backup server, the eligible
set is empty and the backup set is not, yet the weighted round-robin (the
policy the factory uses for `roundrobin` and unknown names), least-connection,
random and source-hash pickers all return `none` — only the plain round-robin
picker falls back to the backup. -/
theorem wrr_no_backup_fallback :
    rrB [srvBackup] = [srvBackup] ∧
    wrrE [srvBackup] = [] ∧
    (wrrSelectServer [srvBackup] WrrState.new 1).1 = none ∧
    lcSelectServer [srvBackup] 0 = none ∧
    randomSelectServer [srvBackup] 0 = none ∧
    sourceHashSelectServer [srvBackup] 0 = none ∧
    (rrSelectServer [srvBackup] 0).1 = some srvBackup := by
  refine ⟨rfl, rfl, rfl, rfl, rfl, rfl, rfl⟩

/-- C2 amended: eligibility is exactly Up ∧ not disabled ∧ not backup ∧
positive weight, and every policy selects only among servers passing this
filter (whenever any of the five pickers returns a server, that server is a
member of the eligible set — for the plain round-robin picker, of the
Up-backup set in its fallback case); but only the plain round-robin picker
falls back to the Up-backup set when the eligible set is empty (returning
`none` only when both are empty) — the weighted round-robin,
least-connection, random and source-hash pickers return `none` whenever the
eligible set is empty, even when Up backups exist. -/
theorem eligibility_and_backup_fallback :
    (∀ s : ServerState, s.is_available = true ↔
      (s.status = ServerStatus.up ∧ s.config.disabled.getD false = false ∧
       s.config.backup.getD false = false ∧ 0 < s.weight)) ∧
    (∀ (servers : List ServerState) (i : Nat), rrE servers ≠ [] →
      (rrSelectServer servers i).1 =
        some ((rrE servers).getD ((i + 1) % (rrE servers).length) default) ∧
      ((rrE servers).getD ((i + 1) % (rrE servers).length) default)
        ∈ rrE servers) ∧
    (∀ (servers : List ServerState) (i : Nat), rrE servers = [] →
      rrB servers ≠ [] →
      (rrSelectServer servers i).1 =
        some ((rrB servers).getD ((i + 1) % (rrB servers).length) default) ∧
      ((rrB servers).getD ((i + 1) % (rrB servers).length) default)
        ∈ rrB servers) ∧
    (∀ (servers : List ServerState) (i : Nat), rrE servers = [] →
      rrB servers = [] → (rrSelectServer servers i).1 = none) ∧
    (∀ (servers : List ServerState) (st : WrrState) (fuel : Nat),
      wrrE servers = [] → (wrrSelectServer servers st fuel).1 = none) ∧
    (∀ (servers : List ServerState) (rnd : Nat), rrE servers = [] →
      lcSelectServer servers rnd = none) ∧
    (∀ (servers : List ServerState) (rnd : Nat), rrE servers = [] →
      randomSelectServer servers rnd = none) ∧
    (∀ (servers : List ServerState) (rnd : Nat), rrE servers = [] →
      sourceHashSelectServer servers rnd = none) ∧
    (∀ servers : List ServerState, wrrE servers = rrE servers) ∧
    (∀ (servers : List ServerState) (st : WrrState) (fuel : Nat)
      (s : ServerState), (wrrSelectServer servers st fuel).1 = some s →
      s ∈ rrE servers ∧ s.is_available = true) ∧
    (∀ (servers : List ServerState) (rnd : Nat) (s : ServerState),
      lcSelectServer servers rnd = some s →
      s ∈ rrE servers ∧ s.is_available = true) ∧
    (∀ (servers : List ServerState) (rnd : Nat) (s : ServerState),
      randomSelectServer servers rnd = some s →
      s ∈ rrE servers ∧ s.is_available = true) ∧
    (∀ (servers : List ServerState) (rnd : Nat) (s : ServerState),
      sourceHashSelectServer servers rnd = some s →
      s ∈ rrE servers ∧ s.is_available = true) := by
  refine ⟨?_, ?_, ?_,
    fun servers i hE hB => by rw [rrSelect_none servers i hE hB],
    fun servers st fuel h => by rw [wrrSelect_of_empty servers st fuel h],
    fun servers rnd h => lcSelect_of_empty servers rnd h,
    fun servers rnd h => randomSelect_of_empty servers rnd h,
    fun servers rnd h => sourceHashSelect_of_empty servers rnd h,
    wrrE_eq_rrE, ?_, ?_, ?_, ?_⟩
  · intro s
    simp [ServerState.is_available, and_assoc]
  · intro servers i hE
    have hlen : 0 < (rrE servers).length := List.length_pos.mpr hE
    refine ⟨by rw [rrSelect_of_available servers i hE], ?_⟩
    exact getD_mem_of_lt _ _ (Nat.mod_lt _ hlen)
  · intro servers i hE hB
    have hlen : 0 < (rrB servers).length := List.length_pos.mpr hB
    refine ⟨by rw [rrSelect_of_backup servers i hE hB], ?_⟩
    exact getD_mem_of_lt _ _ (Nat.mod_lt _ hlen)
  · intro servers st fuel s h
    have hm : s ∈ rrE servers :=
      wrrE_eq_rrE servers ▸ wrrSelect_mem servers st fuel s h
    exact ⟨hm, mem_rrE_available servers s hm⟩
  · intro servers rnd s h
    have hm := lcSelect_mem servers rnd s h
    exact ⟨hm, mem_rrE_available servers s hm⟩
  · intro servers rnd s h
    have hm := randomSelect_mem servers rnd s h
    exact ⟨hm, mem_rrE_available servers s hm⟩
  · intro servers rnd s h
    have hm := sourceHashSelect_mem servers rnd s h
    exact ⟨hm, mem_rrE_available servers s hm⟩

/-- Witness: for the one-Up-backup pool, the round-robin picker returns the
backup server while the least-connection picker returns `none`; and on the
two-eligible-server pool the least-connection picker's tie-break pick is a
member of the eligible set and passes the availability filter. -/
theorem eligibility_and_backup_fallback_witness :
    (rrSelectServer [srvBackup] 4).1 = some srvBackup ∧
    lcSelectServer [srvBackup] 3 = none ∧
    (srvB ∈ rrE [srvA, srvB] ∧ srvB.is_available = true) :=
  ⟨((eligibility_and_backup_fallback.2.2.1 [srvBackup] 4 rfl
      (by intro h; cases h)).1).trans (by rfl),
   eligibility_and_backup_fallback.2.2.2.2.2.1 [srvBackup] 3 rfl,
   eligibility_and_backup_fallback.2.2.2.2.2.2.2.2.2.2.1
     [srvA, srvB] 3 srvB rfl⟩

/-- C1 counterexample: on a fresh round-robin balancer (`next_index = 0`)
over two eligible servers, the claim predicts the server at position
`0 mod 2`, i.e. s1; the code increments first and returns the server at
position 1, i.e. s2. -/
theorem rr_first_call_not_index_zero :
    rrE [srvA, srvB] = [srvA, srvB] ∧
    (rrSelectServer [srvA, srvB] 0).1 = some srvB ∧
    srvB ≠ [srvA, srvB].getD (0 % 2) default := by
  refine ⟨rfl, rfl, ?_⟩
  decide

/-- The round-robin index after `t` calls over a stable non-empty eligible
set is `t mod |E|`. -/
theorem rrRun_closed (servers : List ServerState) (hE : rrE servers ≠ [])
    (t : Nat) : rrRun servers t = t % (rrE servers).length := by
  induction t with
  | zero => rw [rrRun, Nat.zero_mod]
  | succ t ih =>
    rw [rrRun, rrSelect_of_available servers _ hE, ih]
    exact (Nat.mod_modEq t (rrE servers).length).add_right 1

/-- C1 amended: every call of the plain round-robin picker first advances
`next_index` to `(next_index + 1) mod |E|` and then returns `E[next_index]`
(weights ignored); starting from the fresh balancer the call number `t`
returns `E[(t+1) mod |E|]`, and over any window of `k·|E|` consecutive calls
with stable non-empty `E` each position of `E` is selected exactly `k`
times. -/
theorem rr_increment_then_select_window (servers : List ServerState)
    (hE : rrE servers ≠ []) :
    (∀ i, rrSelectServer servers i =
      (some ((rrE servers).getD ((i + 1) % (rrE servers).length) default),
       (i + 1) % (rrE servers).length)) ∧
    (∀ t, rrRun servers (t + 1) = (t + 1) % (rrE servers).length) ∧
    (∀ t, rrSelAt servers t =
      some ((rrE servers).getD ((t + 1) % (rrE servers).length) default)) ∧
    (∀ t0 k i, i < (rrE servers).length →
      rrSelCount servers t0 (k * (rrE servers).length) i = k) := by
  have hlen : 0 < (rrE servers).length := List.length_pos.mpr hE
  refine ⟨fun i => rrSelect_of_available servers i hE,
    fun t => rrRun_closed servers hE (t + 1), fun t => ?_, fun t0 k i hi => ?_⟩
  · rw [rrSelAt, rrSelect_of_available servers _ hE, rrRun_closed servers hE t]
    have : (t % (rrE servers).length + 1) % (rrE servers).length
        = (t + 1) % (rrE servers).length :=
      (Nat.mod_modEq t (rrE servers).length).add_right 1
    rw [this]
  · rw [rrSelCount]
    have hcong : ∀ d ∈ Finset.range (k * (rrE servers).length),
        (rrRun servers (t0 + d + 1) = i) ↔
        (((t0 + 1) + d) % (rrE servers).length = i) := by
      intro d _
      rw [rrRun_closed servers hE, show t0 + d + 1 = (t0 + 1) + d from by ring]
    rw [Finset.filter_congr hcong]
    exact count_mod_window _ (t0 + 1) i hlen hi k

/-- Witness: over the two-server pool, six consecutive calls starting at call
number 1 select position 0 exactly three times. -/
theorem rr_increment_then_select_window_witness :
    rrSelCount [srvA, srvB] 1 (3 * 2) 0 = 3 :=
  (rr_increment_then_select_window [srvA, srvB]
    (by intro h; cases h)).2.2.2 1 3 0 (by decide)

/-! ## The weighted round-robin balancer: basic quantities -/

/-- The source's Euclid recursion computes the gcd (flipped). -/
theorem calculateGcd_eq_gcd : ∀ b a, calculateGcd a b = Nat.gcd b a := by
  intro b
  induction b using Nat.strong_induction_on with
  | _ b ih =>
    intro a
    rw [calculateGcd]
    split_ifs with hb
    · subst hb; simp
    · rw [ih (a % b) (Nat.mod_lt _ (Nat.pos_of_ne_zero hb)) b]
      exact (Nat.gcd_rec b a).symm

/-- The fold of `calculate_gcd` divides its seed and every list element. -/
theorem foldl_calculateGcd_dvd (l : List Nat) (a : Nat) :
    (l.foldl calculateGcd a) ∣ a ∧ ∀ w ∈ l, (l.foldl calculateGcd a) ∣ w := by
  induction l generalizing a with
  | nil => exact ⟨dvd_refl a, fun w hw => absurd hw (List.not_mem_nil w)⟩
  | cons x xs ih =>
    have h := ih (calculateGcd a x)
    rw [List.foldl_cons]
    refine ⟨h.1.trans ?_, ?_⟩
    · rw [calculateGcd_eq_gcd]; exact Nat.gcd_dvd_right x a
    · intro w hw
      rcases List.mem_cons.mp hw with rfl | hw'
      · exact h.1.trans (by rw [calculateGcd_eq_gcd]; exact Nat.gcd_dvd_left w a)
      · exact h.2 w hw'

/-- The fold of `calculate_gcd` from a positive seed is positive. -/
theorem foldl_calculateGcd_pos (l : List Nat) (a : Nat) (ha : 0 < a) :
    0 < l.foldl calculateGcd a := by
  induction l generalizing a with
  | nil => exact ha
  | cons x xs ih =>
    rw [List.foldl_cons]
    refine ih (calculateGcd a x) ?_
    rw [calculateGcd_eq_gcd]
    exact Nat.gcd_pos_of_pos_right x ha

/-- The max fold bounds its seed and every element. -/
theorem foldl_max_bounds (r : List Nat) (x : Nat) :
    x ≤ r.foldl max x ∧ ∀ w ∈ r, w ≤ r.foldl max x := by
  induction r generalizing x with
  | nil => exact ⟨Nat.le_refl x, fun w hw => absurd hw (List.not_mem_nil w)⟩
  | cons y ys ih =>
    have h := ih (max x y)
    rw [List.foldl_cons]
    refine ⟨Nat.le_trans (Nat.le_max_left x y) h.1, ?_⟩
    intro w hw
    rcases List.mem_cons.mp hw with rfl | hw'
    · exact Nat.le_trans (Nat.le_max_right x w) h.1
    · exact h.2 w hw'

/-- The max fold lands on the seed or a list element. -/
theorem foldl_max_mem (r : List Nat) (x : Nat) : r.foldl max x ∈ x :: r := by
  induction r generalizing x with
  | nil => simp
  | cons y ys ih =>
    rw [List.foldl_cons]
    have h := ih (max x y)
    rcases List.mem_cons.mp h with he | hm
    · rcases max_choice x y with hc | hc <;> rw [he, hc] <;> simp
    · simp [List.mem_cons.mpr (Or.inr hm), List.mem_cons]

/-- Base facts about the weighted balancer's quantities over a stable
non-empty eligible set: all eligible weights are positive, divisible by the
gcd and bounded by the max, the max is attained, and `m = g·P`. -/
theorem wrr_base (servers : List ServerState) (hE : wrrE servers ≠ []) :
    0 < wrrN servers ∧
    (∀ i, i < wrrN servers → 0 < wrrWeightAt servers i) ∧
    0 < wrrG servers ∧
    (∀ i, i < wrrN servers → wrrG servers ∣ wrrWeightAt servers i) ∧
    (∀ i, i < wrrN servers → wrrWeightAt servers i ≤ wrrM servers) ∧
    wrrG servers ∣ wrrM servers ∧
    0 < wrrM servers ∧
    wrrM servers = wrrG servers * wrrP servers ∧
    0 < wrrP servers ∧
    (∃ i, i < wrrN servers ∧ wrrWeightAt servers i = wrrM servers) := by
  have hn : 0 < wrrN servers := List.length_pos.mpr hE
  have hwpos : ∀ s ∈ wrrE servers, 0 < s.weight := by
    intro s hs
    have hs' : s ∈ servers.filter wrrFilter := hs
    have := List.of_mem_filter hs'
    simp only [wrrFilter, Bool.and_eq_true, decide_eq_true_eq] at this
    exact this.2
  have hAt : ∀ i, i < wrrN servers →
      ∃ s ∈ wrrE servers, wrrWeightAt servers i = s.weight := by
    intro i hi
    refine ⟨(wrrE servers).getD i default, getD_mem_of_lt _ _ hi, rfl⟩
  have hAtPos : ∀ i, i < wrrN servers → 0 < wrrWeightAt servers i := by
    intro i hi
    obtain ⟨s, hs, hw⟩ := hAt i hi
    rw [hw]; exact hwpos s hs
  cases hws : (servers.filter wrrFilter).map (·.weight) with
  | nil =>
    exact absurd (List.map_eq_nil_iff.mp hws) hE
  | cons w0 rest =>
    have hG : wrrG servers = rest.foldl calculateGcd w0 := by
      rw [wrrG, calculateGcdOfWeights, hws]
    have hM : wrrM servers = rest.foldl max w0 := by
      rw [wrrM]
      have : (wrrE servers).map (·.weight) = w0 :: rest := hws
      rw [this, List.max?]
      rfl
    have hdvd_all : ∀ w ∈ w0 :: rest, wrrG servers ∣ w := by
      intro w hw
      rcases List.mem_cons.mp hw with rfl | hw'
      · rw [hG]; exact (foldl_calculateGcd_dvd rest w).1
      · rw [hG]; exact (foldl_calculateGcd_dvd rest w0).2 w hw'
    have hmax_all : ∀ w ∈ w0 :: rest, w ≤ wrrM servers := by
      intro w hw
      rcases List.mem_cons.mp hw with rfl | hw'
      · rw [hM]; exact (foldl_max_bounds rest w).1
      · rw [hM]; exact (foldl_max_bounds rest w0).2 w hw'
    have hmem_weights : ∀ i, i < wrrN servers →
        wrrWeightAt servers i ∈ w0 :: rest := by
      intro i hi
      rw [← hws]
      obtain ⟨s, hs, hw⟩ := hAt i hi
      rw [hw]
      exact List.mem_map_of_mem _ hs
    have hw0pos : 0 < w0 := by
      have : w0 ∈ (servers.filter wrrFilter).map (·.weight) := by
        rw [hws]; exact List.mem_cons_self w0 rest
      obtain ⟨s, hs, hsw⟩ := List.mem_map.mp this
      rw [← hsw]; exact hwpos s hs
    have hg : 0 < wrrG servers := by rw [hG]; exact foldl_calculateGcd_pos rest w0 hw0pos
    have hMmem : wrrM servers ∈ (servers.filter wrrFilter).map (·.weight) := by
      rw [hws, hM]
      exact foldl_max_mem rest w0
    have hgM : wrrG servers ∣ wrrM servers := hdvd_all _ (hws ▸ hMmem)
    have hMpos : 0 < wrrM servers := by
      obtain ⟨s, hs, hsw⟩ := List.mem_map.mp hMmem
      rw [← hsw]; exact hwpos s hs
    have hMP : wrrM servers = wrrG servers * wrrP servers :=
      (Nat.mul_div_cancel' hgM).symm
    have hP : 0 < wrrP servers := by
      rcases Nat.eq_zero_or_pos (wrrP servers) with h0 | h
      · rw [h0, Nat.mul_zero] at hMP; omega
      · exact h
    have hattain : ∃ i, i < wrrN servers ∧ wrrWeightAt servers i = wrrM servers := by
      obtain ⟨s, hs, hsw⟩ := List.mem_map.mp hMmem
      have hs' : s ∈ wrrE servers := hs
      obtain ⟨j, hj, hsj⟩ := List.mem_iff_getElem.mp hs'
      refine ⟨j, hj, ?_⟩
      rw [wrrWeightAt, List.getD_eq_getElem _ _ hj, hsj, hsw]
    exact ⟨hn, hAtPos, hg, fun i hi => hdvd_all _ (hmem_weights i hi),
      fun i hi => hmax_all _ (hmem_weights i hi), hgM, hMpos, hMP, hP, hattain⟩

/-! ## The weighted round-robin examination schedule -/

/-- The entry weight is always between the gcd and the max. -/
theorem entryCw_bounds (servers : List ServerState) (hE : wrrE servers ≠ [])
    (p : Nat) :
    wrrG servers ≤ entryCw servers p ∧ entryCw servers p ≤ wrrM servers := by
  obtain ⟨hn, hwAt, hg, hdvd, hle, hgM, hMpos, hMP, hP, hattain⟩ :=
    wrr_base servers hE
  obtain ⟨Q, hQ⟩ : ∃ Q, wrrP servers = Q + 1 := ⟨wrrP servers - 1, by omega⟩
  have hx : (p / wrrN servers) % wrrP servers ≤ Q := by
    have := Nat.mod_lt (p / wrrN servers) hP
    omega
  have hmul : wrrG servers * ((p / wrrN servers) % wrrP servers)
      ≤ wrrG servers * Q := Nat.mul_le_mul_left _ hx
  have hMeq : wrrM servers = wrrG servers * Q + wrrG servers := by
    rw [hMP, hQ]; ring
  rw [entryCw]
  omega

/-- One loop iteration's current-weight update takes the entry weight of
position `p` to the entry weight of position `p + 1` (the decrement happens
exactly on wrap-around, resetting from zero to the max). -/
theorem entryCw_step (servers : List ServerState) (hE : wrrE servers ≠ [])
    (p : Nat) :
    (if exIdx servers p = 0 then
       (if entryCw servers p - wrrG servers = 0 then wrrM servers
        else entryCw servers p - wrrG servers)
     else entryCw servers p) = entryCw servers (p + 1) := by
  obtain ⟨hn, hwAt, hg, hdvd, hle, hgM, hMpos, hMP, hP, hattain⟩ :=
    wrr_base servers hE
  have hdiv : (p + 1) / wrrN servers
      = p / wrrN servers + if wrrN servers ∣ p + 1 then 1 else 0 :=
    Nat.succ_div p (wrrN servers)
  by_cases hidx : exIdx servers p = 0
  · rw [if_pos hidx]
    have hdvdn : wrrN servers ∣ p + 1 := by
      rw [exIdx, Nat.add_comm] at hidx
      exact Nat.dvd_iff_mod_eq_zero.mpr hidx
    have hdiv1 : (p + 1) / wrrN servers = p / wrrN servers + 1 := by
      rw [hdiv, if_pos hdvdn]
    have hxlt : (p / wrrN servers) % wrrP servers < wrrP servers :=
      Nat.mod_lt _ hP
    obtain ⟨Q, hQ⟩ : ∃ Q, wrrP servers = Q + 1 := ⟨wrrP servers - 1, by omega⟩
    have hMeq : wrrM servers = wrrG servers * Q + wrrG servers := by
      rw [hMP, hQ]; ring
    have hmodstep : (p / wrrN servers + 1) % wrrP servers
        = ((p / wrrN servers) % wrrP servers + 1) % wrrP servers :=
      ((Nat.mod_modEq (p / wrrN servers) (wrrP servers)).add_right 1).symm
    by_cases hxtop : (p / wrrN servers) % wrrP servers = Q
    · have hcw : entryCw servers p = wrrG servers := by
        rw [entryCw, hxtop]; omega
      rw [if_pos (by omega)]
      have hmod0 : (p / wrrN servers + 1) % wrrP servers = 0 := by
        rw [hmodstep, hxtop, show Q + 1 = wrrP servers from hQ.symm,
          Nat.mod_self]
      rw [entryCw, hdiv1, hmod0, Nat.mul_zero, Nat.sub_zero]
    · have hxQ : (p / wrrN servers) % wrrP servers < Q := by omega
      have hmul2 : wrrG servers * ((p / wrrN servers) % wrrP servers)
            + wrrG servers ≤ wrrG servers * Q := by
        have h1 : (p / wrrN servers) % wrrP servers + 1 ≤ Q := hxQ
        have h2 := Nat.mul_le_mul_left (wrrG servers) h1
        calc wrrG servers * ((p / wrrN servers) % wrrP servers) + wrrG servers
            = wrrG servers * ((p / wrrN servers) % wrrP servers + 1) := by ring
          _ ≤ wrrG servers * Q := h2
      have hcw : entryCw servers p
          = wrrM servers - wrrG servers * ((p / wrrN servers) % wrrP servers) :=
        rfl
      rw [if_neg (by omega)]
      have hmodx : (p / wrrN servers + 1) % wrrP servers
          = (p / wrrN servers) % wrrP servers + 1 := by
        rw [hmodstep]
        exact Nat.mod_eq_of_lt (by omega)
      rw [entryCw, entryCw, hdiv1, hmodx]
      have hdist : wrrG servers * ((p / wrrN servers) % wrrP servers + 1)
          = wrrG servers * ((p / wrrN servers) % wrrP servers)
            + wrrG servers := by ring
      omega
  · rw [if_neg hidx]
    have hndvd : ¬ (wrrN servers ∣ p + 1) := by
      intro hd
      apply hidx
      rw [exIdx, Nat.add_comm]
      exact Nat.dvd_iff_mod_eq_zero.mp hd
    have hsame : (p + 1) / wrrN servers = p / wrrN servers := by
      rw [hdiv, if_neg hndvd]
      omega
    rw [entryCw, entryCw, hsame]

/-- The examined index is `L`-periodic. -/
theorem exIdx_add_L (servers : List ServerState) (j : Nat) :
    exIdx servers (j + wrrL servers) = exIdx servers j := by
  rw [exIdx, exIdx, wrrL,
    show 1 + (j + wrrN servers * wrrP servers)
      = (1 + j) + wrrN servers * wrrP servers from by ring,
    Nat.add_mul_mod_self_left]

/-- The entry weight is `L`-periodic. -/
theorem entryCw_add_L (servers : List ServerState) (hn : 0 < wrrN servers)
    (p : Nat) : entryCw servers (p + wrrL servers) = entryCw servers p := by
  rw [entryCw, entryCw, wrrL, Nat.add_mul_div_left _ _ hn, Nat.add_mod_right]

/-- The tested weight is `L`-periodic. -/
theorem exCw_add_L (servers : List ServerState) (hn : 0 < wrrN servers)
    (p : Nat) : exCw servers (p + wrrL servers) = exCw servers p := by
  rw [exCw, exCw, show p + wrrL servers + 1 = (p + 1) + wrrL servers from by
    ring, entryCw_add_L servers hn]

/-- The guard outcome is `L`-periodic. -/
theorem hitB_add_L (servers : List ServerState) (hn : 0 < wrrN servers)
    (j : Nat) : hitB servers (j + wrrL servers) = hitB servers j := by
  rw [hitB, hitB, exCw_add_L servers hn, exIdx_add_L]

/-- Within any `n` consecutive schedule positions the guard succeeds at least
once (at the position examining a maximal-weight server). -/
theorem hit_exists_within (servers : List ServerState) (hE : wrrE servers ≠ [])
    (p : Nat) : ∃ k, k < wrrN servers ∧ hitB servers (p + k) = true := by
  obtain ⟨hn, hwAt, hg, hdvd, hle, hgM, hMpos, hMP, hP, istar, hilt, hiw⟩ :=
    wrr_base servers hE
  refine ⟨(istar + wrrN servers - (1 + p) % wrrN servers) % wrrN servers,
    Nat.mod_lt _ hn, ?_⟩
  have hsol := mod_shift_solution (wrrN servers) (1 + p) istar hn hilt
  have harr : 1 + (p + (istar + wrrN servers - (1 + p) % wrrN servers)
      % wrrN servers) = (1 + p) + (istar + wrrN servers
      - (1 + p) % wrrN servers) % wrrN servers := by ring
  have hidx : exIdx servers (p + (istar + wrrN servers
      - (1 + p) % wrrN servers) % wrrN servers) = istar := by
    rw [exIdx, harr, hsol]
  simp only [hitB, hidx, hiw, decide_eq_true_eq]
  exact (entryCw_bounds servers hE _).2

/-- Correctness of the fuelled search for the next guard success. -/
theorem findHitAux_spec (servers : List ServerState) :
    ∀ (fuel p : Nat), (∃ k, k < fuel ∧ hitB servers (p + k) = true) →
    hitB servers (findHitAux servers fuel p) = true ∧
    p ≤ findHitAux servers fuel p ∧
    findHitAux servers fuel p < p + fuel ∧
    ∀ j, p ≤ j → j < findHitAux servers fuel p → hitB servers j = false := by
  intro fuel
  induction fuel with
  | zero =>
    intro p h
    obtain ⟨k, hk, _⟩ := h
    omega
  | succ fuel ih =>
    intro p h
    obtain ⟨k, hk, hkhit⟩ := h
    rw [findHitAux]
    by_cases hp : hitB servers p = true
    · rw [if_pos hp]
      exact ⟨hp, Nat.le_refl p, by omega, fun j hj1 hj2 => by omega⟩
    · rw [if_neg hp]
      have hp' : hitB servers p = false := by simpa using hp
      have hk0 : k ≠ 0 := by
        intro h0
        rw [h0, Nat.add_zero] at hkhit
        exact hp hkhit
      have hnext : ∃ k', k' < fuel ∧ hitB servers (p + 1 + k') = true := by
        refine ⟨k - 1, by omega, ?_⟩
        rw [show p + 1 + (k - 1) = p + k from by omega]
        exact hkhit
      obtain ⟨h1, h2, h3, h4⟩ := ih (p + 1) hnext
      refine ⟨h1, by omega, by omega, fun j hj1 hj2 => ?_⟩
      rcases Nat.eq_or_lt_of_le hj1 with rfl | hlt
      · exact hp'
      · exact h4 j hlt hj2

/-- The next guard success exists, is found by `nextHit`, lies within `n`
positions, and nothing before it succeeds. -/
theorem nextHit_spec (servers : List ServerState) (hE : wrrE servers ≠ [])
    (p : Nat) :
    hitB servers (nextHit servers p) = true ∧ p ≤ nextHit servers p ∧
    nextHit servers p < p + wrrN servers ∧
    ∀ j, p ≤ j → j < nextHit servers p → hitB servers j = false := by
  apply findHitAux_spec
  exact hit_exists_within servers hE p

/-- Skipping a failed position does not change where the next success is. -/
theorem nextHit_eq_of_not_hit (servers : List ServerState)
    (hE : wrrE servers ≠ []) (p : Nat) (hp : hitB servers p = false) :
    nextHit servers p = nextHit servers (p + 1) := by
  obtain ⟨ha1, ha2, ha3, ha4⟩ := nextHit_spec servers hE p
  obtain ⟨hb1, hb2, hb3, hb4⟩ := nextHit_spec servers hE (p + 1)
  have hap : nextHit servers p ≠ p := by
    intro h
    rw [h] at ha1
    rw [ha1] at hp
    cases hp
  have hage : p + 1 ≤ nextHit servers p := by omega
  rcases Nat.lt_trichotomy (nextHit servers p) (nextHit servers (p + 1)) with
    hlt | heq | hgt
  · have := hb4 (nextHit servers p) hage hlt
    rw [ha1] at this
    cases this
  · exact heq
  · have := ha4 (nextHit servers (p + 1)) (by omega) hgt
    rw [hb1] at this
    cases this

/-- The inner loop of the weighted balancer, entered about to examine
schedule position `p` (index congruent to `p` and current weight equal to the
entry weight of `p`), returns the server at the next guard success, together
with that position's index and weight as the new cursor state. -/
theorem wrrLoop_eq (servers : List ServerState) (hE : wrrE servers ≠ []) :
    ∀ (fuel p idx cw : Nat),
    idx % wrrN servers = p % wrrN servers →
    cw = entryCw servers p →
    nextHit servers p < p + fuel →
    wrrLoop (wrrE servers) (wrrG servers) (wrrM servers) idx cw fuel =
      some ((wrrE servers).getD (exIdx servers (nextHit servers p)) default,
        exIdx servers (nextHit servers p), exCw servers (nextHit servers p)) := by
  intro fuel
  induction fuel with
  | zero =>
    intro p idx cw _ _ hfuel
    obtain ⟨_, hge, _, _⟩ := nextHit_spec servers hE p
    omega
  | succ fuel ih =>
    intro p idx cw hidx hcw hfuel
    have hn : 0 < wrrN servers := List.length_pos.mpr hE
    simp only [wrrLoop]
    have hidx' : (idx + 1) % (wrrE servers).length = exIdx servers p := by
      show (idx + 1) % wrrN servers = (1 + p) % wrrN servers
      calc (idx + 1) % wrrN servers
          = (idx % wrrN servers + 1) % wrrN servers :=
            ((Nat.mod_modEq idx (wrrN servers)).add_right 1).symm
        _ = (p % wrrN servers + 1) % wrrN servers := by rw [hidx]
        _ = (p + 1) % wrrN servers :=
            (Nat.mod_modEq p (wrrN servers)).add_right 1
        _ = (1 + p) % wrrN servers := by rw [Nat.add_comm]
    rw [hidx', hcw, entryCw_step servers hE p]
    by_cases hp : hitB servers p = true
    · have hprop : entryCw servers (p + 1)
          ≤ ((wrrE servers).getD (exIdx servers p) default).weight :=
        of_decide_eq_true hp
      rw [if_pos hprop]
      have hnp : nextHit servers p = p := by
        obtain ⟨h1, h2, h3, h4⟩ := nextHit_spec servers hE p
        by_contra hne
        have hfalse := h4 p (Nat.le_refl p) (by omega)
        rw [hp] at hfalse
        cases hfalse
      rw [hnp]
      rfl
    · have hp' : hitB servers p = false := by simpa using hp
      have hprop : ¬ (entryCw servers (p + 1)
          ≤ ((wrrE servers).getD (exIdx servers p) default).weight) := by
        intro hle2
        exact hp (decide_eq_true hle2)
      rw [if_neg hprop]
      rw [nextHit_eq_of_not_hit servers hE p hp']
      have hge1 : p + 1 ≤ nextHit servers p := by
        obtain ⟨h1, h2, h3, h4⟩ := nextHit_spec servers hE p
        have : nextHit servers p ≠ p := by
          intro h
          rw [h] at h1
          rw [h1] at hp'
          cases hp'
        omega
      refine ih (p + 1) (exIdx servers p) (entryCw servers (p + 1)) ?_ rfl ?_
      · show (1 + p) % wrrN servers % wrrN servers = (p + 1) % wrrN servers
        rw [Nat.mod_eq_of_lt (Nat.mod_lt _ hn), Nat.add_comm]
      · rw [← nextHit_eq_of_not_hit servers hE p hp']
        omega

/-- One call of the embedded `select_server`, entered about to examine
schedule position `p`. -/
theorem wrrSelect_call (servers : List ServerState) (hE : wrrE servers ≠ [])
    (st : WrrState) (p : Nat)
    (hidx : st.current_index % wrrN servers = p % wrrN servers)
    (hcw : (if st.current_weight = 0 then wrrM servers
            else st.current_weight) = entryCw servers p) :
    wrrSelectServer servers st (wrrN servers) =
      (some ((wrrE servers).getD (exIdx servers (nextHit servers p)) default),
       ⟨exIdx servers (nextHit servers p), exCw servers (nextHit servers p),
        wrrM servers, wrrG servers⟩) := by
  have hne : (servers.filter wrrFilter).isEmpty = false := by
    have h : wrrE servers ≠ [] := hE
    rw [wrrE] at h
    cases hc : servers.filter wrrFilter with
    | nil => exact absurd hc h
    | cons a l => rfl
  have hm_eq : ((servers.filter wrrFilter).map (·.weight)).max?.getD 1
      = wrrM servers := rfl
  have hg_eq : calculateGcdOfWeights servers = wrrG servers := rfl
  have he_eq : servers.filter wrrFilter = wrrE servers := rfl
  obtain ⟨hhit, hge, hlt, hmin⟩ := nextHit_spec servers hE p
  simp only [wrrSelectServer, hne, Bool.false_eq_true, if_false, reduceIte]
  rw [hm_eq, hg_eq, he_eq, hcw,
    wrrLoop_eq servers hE (wrrN servers) p st.current_index
      (entryCw servers p) hidx rfl (by omega)]

/-- The weighted balancer's state after call `t + 1` is the cursor at the
`t`-th guard success, and the call returns the eligible server examined
there. -/
theorem wrrRun_state (servers : List ServerState) (hE : wrrE servers ≠ [])
    (t : Nat) :
    wrrRun servers (t + 1) =
      ⟨exIdx servers (selPos servers t), exCw servers (selPos servers t),
        wrrM servers, wrrG servers⟩ ∧
    wrrSelAt servers t =
      some ((wrrE servers).getD (exIdx servers (selPos servers t)) default) := by
  have hn : 0 < wrrN servers := List.length_pos.mpr hE
  induction t with
  | zero =>
    have hcall := wrrSelect_call servers hE WrrState.new 0 rfl
      (by simp [WrrState.new, entryCw])
    have hsp : selPos servers 0 = nextHit servers 0 := rfl
    constructor
    · show (wrrSelectServer servers (wrrRun servers 0) (wrrN servers)).2 = _
      rw [show wrrRun servers 0 = WrrState.new from rfl, hcall, hsp]
    · show (wrrSelectServer servers (wrrRun servers 0) (wrrN servers)).1 = _
      rw [show wrrRun servers 0 = WrrState.new from rfl, hcall, hsp]
  | succ t ih =>
    obtain ⟨ihs, _⟩ := ih
    have hcwpos : 0 < exCw servers (selPos servers t) := by
      have := (entryCw_bounds servers hE (selPos servers t + 1)).1
      have hg : 0 < wrrG servers :=
        (wrr_base servers hE).2.2.1
      have hex : exCw servers (selPos servers t)
          = entryCw servers (selPos servers t + 1) := rfl
      omega
    have hcall := wrrSelect_call servers hE
      ⟨exIdx servers (selPos servers t), exCw servers (selPos servers t),
        wrrM servers, wrrG servers⟩ (selPos servers t + 1)
      (by
        show exIdx servers (selPos servers t) % wrrN servers
            = (selPos servers t + 1) % wrrN servers
        rw [exIdx, Nat.mod_eq_of_lt (Nat.mod_lt _ hn), Nat.add_comm])
      (by
        show (if exCw servers (selPos servers t) = 0 then wrrM servers
              else exCw servers (selPos servers t))
            = entryCw servers (selPos servers t + 1)
        rw [if_neg (by omega)]
        rfl)
    have hsp : selPos servers (t + 1)
        = nextHit servers (selPos servers t + 1) := rfl
    constructor
    · show (wrrSelectServer servers (wrrRun servers (t + 1))
        (wrrN servers)).2 = _
      rw [ihs, hcall, hsp]
    · show (wrrSelectServer servers (wrrRun servers (t + 1))
        (wrrN servers)).1 = _
      rw [ihs, hcall, hsp]

/-! ## Periodic counting -/

/-- A sum of an `L`-periodic function over any window of length `L` equals
the sum over the initial window. -/
theorem sum_window_periodic (f : Nat → Nat) (L : Nat)
    (hf : ∀ j, f (j + L) = f j) (a : Nat) :
    ∑ d ∈ Finset.range L, f (a + d) = ∑ d ∈ Finset.range L, f d := by
  induction a with
  | zero => simp
  | succ a ih =>
    rw [← ih]
    have h1 : ∑ d ∈ Finset.range (L + 1), f (a + d)
        = (∑ d ∈ Finset.range L, f (a + (d + 1))) + f (a + 0) :=
      Finset.sum_range_succ' (fun d => f (a + d)) L
    have h2 : ∑ d ∈ Finset.range (L + 1), f (a + d)
        = (∑ d ∈ Finset.range L, f (a + d)) + f (a + L) :=
      Finset.sum_range_succ (fun d => f (a + d)) L
    have h3 : ∑ d ∈ Finset.range L, f (a + (d + 1))
        = ∑ d ∈ Finset.range L, f (a + 1 + d) := by
      apply Finset.sum_congr rfl
      intro d _
      congr 1
      ring
    have h4 : f (a + L) = f a := hf a
    have h5 : f (a + 0) = f a := by rw [Nat.add_zero]
    omega

/-- Iterated periodicity. -/
theorem periodic_add_mul (f : Nat → Nat) (T : Nat)
    (hf : ∀ j, f (j + T) = f j) : ∀ g j, f (j + g * T) = f j := by
  intro g
  induction g with
  | zero => intro j; simp
  | succ g ih =>
    intro j
    rw [show j + (g + 1) * T = j + g * T + T from by ring, hf, ih]

/-- A sum of a `T`-periodic function over a window of length `g·T` is `g`
times the sum over one window of length `T`. -/
theorem sum_blocks_periodic (f : Nat → Nat) (T : Nat)
    (hf : ∀ j, f (j + T) = f j) (a : Nat) : ∀ g,
    ∑ d ∈ Finset.range (g * T), f (a + d)
      = g * ∑ d ∈ Finset.range T, f (a + d) := by
  intro g
  induction g with
  | zero => simp
  | succ g ih =>
    have hc := Finset.sum_Ico_consecutive (fun d => f (a + d))
      (Nat.zero_le (g * T)) (Nat.le_add_right (g * T) T)
    have hleft : ∑ d ∈ Finset.Ico 0 (g * T), f (a + d)
        = ∑ d ∈ Finset.range (g * T), f (a + d) := by
      rw [Finset.range_eq_Ico]
    have hright : ∑ d ∈ Finset.Ico (g * T) (g * T + T), f (a + d)
        = ∑ d ∈ Finset.range T, f (a + (g * T + d)) := by
      rw [Finset.sum_Ico_eq_sum_range, Nat.add_sub_cancel_left]
    have hshift : ∑ d ∈ Finset.range T, f (a + (g * T + d))
        = ∑ d ∈ Finset.range T, f (a + d) := by
      apply Finset.sum_congr rfl
      intro d _
      rw [show a + (g * T + d) = (a + d) + g * T from by ring,
        periodic_add_mul f T hf g]
    have hall : ∑ d ∈ Finset.Ico 0 ((g + 1) * T), f (a + d)
        = ∑ d ∈ Finset.range ((g + 1) * T), f (a + d) := by
      rw [Finset.range_eq_Ico]
    have harea : (g + 1) * T = g * T + T := by ring
    rw [harea] at hall
    rw [harea]
    calc ∑ d ∈ Finset.range (g * T + T), f (a + d)
        = ∑ d ∈ Finset.Ico 0 (g * T + T), f (a + d) := by
          rw [Finset.range_eq_Ico]
      _ = (∑ d ∈ Finset.Ico 0 (g * T), f (a + d))
            + ∑ d ∈ Finset.Ico (g * T) (g * T + T), f (a + d) := hc.symm
      _ = (∑ d ∈ Finset.range (g * T), f (a + d))
            + ∑ d ∈ Finset.range T, f (a + d) := by
          rw [hleft, hright, hshift]
      _ = g * (∑ d ∈ Finset.range T, f (a + d))
            + ∑ d ∈ Finset.range T, f (a + d) := by rw [ih]
      _ = (g + 1) * ∑ d ∈ Finset.range T, f (a + d) := by ring

/-! ## Enumerating the guard successes -/

/-- `hitsBelow` is monotone. -/
theorem hitsBelow_mono (servers : List ServerState) {x y : Nat} (h : x ≤ y) :
    hitsBelow servers x ≤ hitsBelow servers y :=
  Finset.card_le_card
    (Finset.filter_subset_filter _ (Finset.range_subset.mpr h))

/-- Counting hits one position at a time. -/
theorem hitsBelow_succ (servers : List ServerState) (x : Nat) :
    hitsBelow servers (x + 1)
      = hitsBelow servers x + (if hitB servers x = true then 1 else 0) := by
  rw [hitsBelow, hitsBelow, Finset.range_succ, Finset.filter_insert]
  split_ifs with h
  · rw [Finset.card_insert_of_not_mem (by simp)]
  · rw [Nat.add_zero]

/-- No hits in `[a, b)` means the hit count does not grow. -/
theorem hitsBelow_no_hits (servers : List ServerState) (a b : Nat)
    (hab : a ≤ b) (h : ∀ j, a ≤ j → j < b → hitB servers j = false) :
    hitsBelow servers b = hitsBelow servers a := by
  induction b, hab using Nat.le_induction with
  | base => rfl
  | succ b hab ih =>
    rw [hitsBelow_succ, h b hab (Nat.lt_succ_self b)]
    simp only [Bool.false_eq_true, if_false, reduceIte, Nat.add_zero]
    exact ih fun j hj1 hj2 => h j hj1 (by omega)

/-- Splitting the hit count at an intermediate point. -/
theorem hitsBelow_add_window (servers : List ServerState) (a c : Nat) :
    hitsBelow servers (a + c) = hitsBelow servers a
      + ((Finset.Ico a (a + c)).filter
          (fun j => hitB servers j = true)).card := by
  have hsplit : Finset.range (a + c)
      = Finset.range a ∪ Finset.Ico a (a + c) := by
    rw [Finset.range_eq_Ico,
      Finset.Ico_union_Ico_eq_Ico (Nat.zero_le a) (Nat.le_add_right a c)]
  have hdisj : Disjoint
      ((Finset.range a).filter (fun j => hitB servers j = true))
      ((Finset.Ico a (a + c)).filter (fun j => hitB servers j = true)) := by
    rw [Finset.disjoint_left]
    intro d hd1 hd2
    have h1 := Finset.mem_range.mp (Finset.mem_filter.mp hd1).1
    have h2 := (Finset.mem_Ico.mp (Finset.mem_filter.mp hd2).1).1
    omega
  rw [hitsBelow, hsplit, Finset.filter_union,
    Finset.card_union_of_disjoint hdisj]
  rfl

/-- The guard succeeds at `selPos t`, and exactly `t` positions below it
succeed: `selPos` enumerates the guard successes in order. -/
theorem hitsBelow_selPos (servers : List ServerState)
    (hE : wrrE servers ≠ []) : ∀ t,
    hitsBelow servers (selPos servers t) = t ∧
    hitB servers (selPos servers t) = true := by
  intro t
  induction t with
  | zero =>
    obtain ⟨h1, h2, h3, h4⟩ := nextHit_spec servers hE 0
    have hsp : selPos servers 0 = nextHit servers 0 := rfl
    refine ⟨?_, by rw [hsp]; exact h1⟩
    rw [hsp, hitsBelow_no_hits servers 0 (nextHit servers 0) (Nat.zero_le _)
      (fun j hj1 hj2 => h4 j hj1 hj2)]
    rfl
  | succ t ih =>
    obtain ⟨iht, ihhit⟩ := ih
    obtain ⟨h1, h2, h3, h4⟩ := nextHit_spec servers hE (selPos servers t + 1)
    have hsp : selPos servers (t + 1)
        = nextHit servers (selPos servers t + 1) := rfl
    refine ⟨?_, by rw [hsp]; exact h1⟩
    rw [hsp, hitsBelow_no_hits servers _ _ h2 h4, hitsBelow_succ, iht, ihhit]
    simp

/-- `selPos` is strictly monotone. -/
theorem selPos_strictMono (servers : List ServerState)
    (hE : wrrE servers ≠ []) : StrictMono (selPos servers) := by
  apply strictMono_nat_of_lt_succ
  intro t
  obtain ⟨h1, h2, h3, h4⟩ := nextHit_spec servers hE (selPos servers t + 1)
  have hsp : selPos servers (t + 1)
      = nextHit servers (selPos servers t + 1) := rfl
  omega

/-- Two guard successes with the same number of successes below them
coincide. -/
theorem hit_unique_by_count (servers : List ServerState) {x y : Nat}
    (hx : hitB servers x = true) (hy : hitB servers y = true)
    (hxy : hitsBelow servers x = hitsBelow servers y) : x = y := by
  rcases Nat.lt_trichotomy x y with h | h | h
  · have hm := hitsBelow_mono servers (show x + 1 ≤ y from h)
    rw [hitsBelow_succ, hx] at hm
    simp only [if_true, reduceIte] at hm
    omega
  · exact h
  · have hm := hitsBelow_mono servers (show y + 1 ≤ x from h)
    rw [hitsBelow_succ, hy] at hm
    simp only [if_true, reduceIte] at hm
    omega

/-- Every guard success is reached by the enumeration. -/
theorem selPos_eq_of_hit (servers : List ServerState)
    (hE : wrrE servers ≠ []) (j : Nat) (hj : hitB servers j = true) :
    selPos servers (hitsBelow servers j) = j := by
  obtain ⟨h1, h2⟩ := hitsBelow_selPos servers hE (hitsBelow servers j)
  exact hit_unique_by_count servers h2 hj h1

/-- Every window of `L` consecutive schedule positions holds exactly
`wrrT` guard successes. -/
theorem hits_window_card (servers : List ServerState)
    (hE : wrrE servers ≠ []) (a : Nat) :
    ((Finset.Ico a (a + wrrL servers)).filter
        (fun j => hitB servers j = true)).card = wrrT servers := by
  have hn : 0 < wrrN servers := List.length_pos.mpr hE
  have hper : ∀ j, (if hitB servers (j + wrrL servers) = true then 1 else 0)
      = if hitB servers j = true then 1 else 0 := by
    intro j
    rw [hitB_add_L servers hn]
  rw [Finset.card_filter, Finset.sum_Ico_eq_sum_range,
    Nat.add_sub_cancel_left,
    sum_window_periodic (fun j => if hitB servers j = true then 1 else 0)
      (wrrL servers) hper a,
    wrrT, Finset.card_filter]

/-- Advancing the enumeration by `wrrT` advances the position by `L`. -/
theorem selPos_add_T (servers : List ServerState) (hE : wrrE servers ≠ [])
    (t : Nat) :
    selPos servers (t + wrrT servers) = selPos servers t + wrrL servers := by
  obtain ⟨hx1, hx2⟩ := hitsBelow_selPos servers hE (t + wrrT servers)
  obtain ⟨ht1, ht2⟩ := hitsBelow_selPos servers hE t
  have hn : 0 < wrrN servers := List.length_pos.mpr hE
  have hyhit : hitB servers (selPos servers t + wrrL servers) = true := by
    rw [hitB_add_L servers hn]
    exact ht2
  have hycount : hitsBelow servers (selPos servers t + wrrL servers)
      = t + wrrT servers := by
    rw [hitsBelow_add_window, ht1, hits_window_card servers hE]
  exact hit_unique_by_count servers hx2 hyhit (by rw [hx1, hycount])

/-- Examining index `i` at position `j` is a congruence condition on `j`. -/
theorem exIdx_eq_iff (servers : List ServerState) (hn : 0 < wrrN servers)
    (j i : Nat) (hi : i < wrrN servers) :
    exIdx servers j = i ↔
      j % wrrN servers = (i + wrrN servers - 1) % wrrN servers := by
  constructor
  · intro h
    have e1 : j % wrrN servers = (j + wrrN servers) % wrrN servers :=
      (Nat.add_mod_right j (wrrN servers)).symm
    have e2 : j + wrrN servers = (1 + j) + (wrrN servers - 1) := by omega
    have e3 : ((1 + j) % wrrN servers + (wrrN servers - 1)) % wrrN servers
        = ((1 + j) + (wrrN servers - 1)) % wrrN servers :=
      (Nat.mod_modEq (1 + j) (wrrN servers)).add_right (wrrN servers - 1)
    have e4 : (1 + j) % wrrN servers = i := h
    rw [e1, e2, ← e3, e4]
    congr 1
    omega
  · intro h
    have e1 : (1 + j % wrrN servers) % wrrN servers
        = (1 + j) % wrrN servers :=
      (Nat.mod_modEq j (wrrN servers)).add_left 1
    have e2 : (1 + (i + wrrN servers - 1) % wrrN servers) % wrrN servers
        = (1 + (i + wrrN servers - 1)) % wrrN servers :=
      (Nat.mod_modEq (i + wrrN servers - 1) (wrrN servers)).add_left 1
    have e3 : 1 + (i + wrrN servers - 1) = i + wrrN servers := by omega
    rw [exIdx, ← e1, h, e2, e3, Nat.add_mod_right]
    exact Nat.mod_eq_of_lt hi

/-- Counting over a rotated window of residues. -/
theorem card_filter_rotate (P δ : Nat) (hP : 0 < P) (p : Nat → Prop)
    [DecidablePred p] :
    ((Finset.range P).filter (fun q => p ((q + δ) % P))).card
      = ((Finset.range P).filter p).card := by
  have hd : P * (δ / P) + δ % P = δ := Nat.div_add_mod δ P
  have hdm : δ % P < P := Nat.mod_lt _ hP
  have inv1 : ∀ q, q < P → ((q + δ) % P + (P - δ % P)) % P = q := by
    intro q hq
    have h1 : ((q + δ) % P + (P - δ % P)) % P
        = ((q + δ) + (P - δ % P)) % P :=
      (Nat.mod_modEq (q + δ) P).add_right (P - δ % P)
    have h2 : (q + δ) + (P - δ % P) = q + P * (δ / P) + P := by omega
    have h3 : q + P * (δ / P) + P = q + P * (δ / P + 1) := by ring
    rw [h1, h2, h3, Nat.add_mul_mod_self_left]
    exact Nat.mod_eq_of_lt hq
  have inv2 : ∀ q, q < P → ((q + (P - δ % P)) % P + δ) % P = q := by
    intro q hq
    have h1 : ((q + (P - δ % P)) % P + δ) % P
        = ((q + (P - δ % P)) + δ) % P :=
      (Nat.mod_modEq (q + (P - δ % P)) P).add_right δ
    have h2 : (q + (P - δ % P)) + δ = q + P * (δ / P) + P := by omega
    have h3 : q + P * (δ / P) + P = q + P * (δ / P + 1) := by ring
    rw [h1, h2, h3, Nat.add_mul_mod_self_left]
    exact Nat.mod_eq_of_lt hq
  apply Finset.card_nbij' (fun q => (q + δ) % P)
    (fun q => (q + (P - δ % P)) % P)
  · intro q hq
    simp only [Finset.mem_filter, Finset.mem_range] at hq ⊢
    exact ⟨Nat.mod_lt _ hP, hq.2⟩
  · intro q hq
    simp only [Finset.mem_filter, Finset.mem_range] at hq ⊢
    refine ⟨Nat.mod_lt _ hP, ?_⟩
    rw [inv2 q hq.1]
    exact hq.2
  · intro q hq
    simp only [Finset.mem_filter, Finset.mem_range] at hq
    exact inv1 q hq.1
  · intro q hq
    simp only [Finset.mem_filter, Finset.mem_range] at hq
    exact inv2 q hq.1

/-- The number of values below `P` at or above a threshold. -/
theorem card_range_filter_le (P c : Nat) :
    ((Finset.range P).filter (fun q => c ≤ q)).card = P - c := by
  have h : (Finset.range P).filter (fun q => c ≤ q) = Finset.Ico c P := by
    ext q
    simp only [Finset.mem_filter, Finset.mem_range, Finset.mem_Ico]
    constructor
    · rintro ⟨h1, h2⟩; exact ⟨h2, h1⟩
    · rintro ⟨h1, h2⟩; exact ⟨h2, h1⟩
  rw [h, Nat.card_Ico]

/-- In one full cycle of `L` schedule positions, the guard succeeds at index
`i` exactly `weight_i / g` times. -/
theorem hits_index_count (servers : List ServerState)
    (hE : wrrE servers ≠ []) (i : Nat) (hi : i < wrrN servers) :
    ((Finset.range (wrrL servers)).filter
        (fun j => hitB servers j = true ∧ exIdx servers j = i)).card
      = wrrWeightAt servers i / wrrG servers := by
  obtain ⟨hn, hwAt, hg, hdvd, hle, hgM, hMpos, hMP, hP, hattain⟩ :=
    wrr_base servers hE
  have hr0 : (i + wrrN servers - 1) % wrrN servers < wrrN servers :=
    Nat.mod_lt _ hn
  have hidxq : ∀ q, exIdx servers
      (wrrN servers * q + (i + wrrN servers - 1) % wrrN servers) = i := by
    intro q
    apply (exIdx_eq_iff servers hn _ i hi).mpr
    rw [Nat.mul_add_mod]
    exact Nat.mod_eq_of_lt hr0
  have hstep1 :
      ((Finset.range (wrrL servers)).filter
        (fun j => hitB servers j = true ∧ exIdx servers j = i)).card
      = ((Finset.range (wrrP servers)).filter
          (fun q => hitB servers
            (wrrN servers * q + (i + wrrN servers - 1) % wrrN servers)
              = true)).card := by
    apply Finset.card_nbij' (fun j => j / wrrN servers)
      (fun q => wrrN servers * q + (i + wrrN servers - 1) % wrrN servers)
    · intro j hj
      simp only [Finset.mem_filter, Finset.mem_range] at hj ⊢
      obtain ⟨hjL, hjhit, hjidx⟩ := hj
      have hjmod : j % wrrN servers
          = (i + wrrN servers - 1) % wrrN servers :=
        (exIdx_eq_iff servers hn j i hi).mp hjidx
      constructor
      · rw [Nat.div_lt_iff_lt_mul hn]
        have hcomm : wrrN servers * wrrP servers
            = wrrP servers * wrrN servers := Nat.mul_comm _ _
        have hjL' : j < wrrN servers * wrrP servers := hjL
        omega
      · rw [show wrrN servers * (j / wrrN servers)
            + (i + wrrN servers - 1) % wrrN servers = j from by
          rw [← hjmod]; exact Nat.div_add_mod j (wrrN servers)]
        exact hjhit
    · intro q hq
      simp only [Finset.mem_filter, Finset.mem_range] at hq ⊢
      obtain ⟨hqP, hqhit⟩ := hq
      have hlt : wrrN servers * q + (i + wrrN servers - 1) % wrrN servers
          < wrrL servers := by
        obtain ⟨Q, hQ⟩ : ∃ Q, wrrP servers = Q + 1 :=
          ⟨wrrP servers - 1, by omega⟩
        have h1 : wrrN servers * q ≤ wrrN servers * Q :=
          Nat.mul_le_mul_left _ (by omega)
        have h2 : wrrL servers = wrrN servers * Q + wrrN servers := by
          rw [wrrL, hQ]; ring
        omega
      exact ⟨hlt, hqhit, hidxq q⟩
    · intro j hj
      simp only [Finset.mem_filter, Finset.mem_range] at hj
      obtain ⟨hjL, hjhit, hjidx⟩ := hj
      have hjmod := (exIdx_eq_iff servers hn j i hi).mp hjidx
      rw [← hjmod]
      exact Nat.div_add_mod j (wrrN servers)
    · intro q hq
      simp only [Finset.mem_filter, Finset.mem_range] at hq
      rw [Nat.mul_add_div hn, Nat.div_eq_of_lt hr0, Nat.add_zero]
  have hexcw : ∀ q, exCw servers
      (wrrN servers * q + (i + wrrN servers - 1) % wrrN servers)
      = wrrM servers
        - wrrG servers * ((q + (if i = 0 then 1 else 0)) % wrrP servers) := by
    intro q
    by_cases hi0 : i = 0
    · subst hi0
      have hr0eq : (0 + wrrN servers - 1) % wrrN servers
          = wrrN servers - 1 := by
        have e : 0 + wrrN servers - 1 = wrrN servers - 1 := by omega
        rw [e]
        exact Nat.mod_eq_of_lt (by omega)
      have e0 : wrrN servers * (q + 1) = wrrN servers * q + wrrN servers := by
        ring
      have e1 : wrrN servers * q + (wrrN servers - 1) + 1
          = wrrN servers * (q + 1) := by omega
      rw [exCw, entryCw, hr0eq, e1, Nat.mul_div_cancel_left _ hn, if_pos rfl]
    · have hr0eq : (i + wrrN servers - 1) % wrrN servers = i - 1 := by
        have e : i + wrrN servers - 1 = (i - 1) + wrrN servers := by omega
        rw [e, Nat.add_mod_right]
        exact Nat.mod_eq_of_lt (by omega)
      have e2 : wrrN servers * q + (i - 1) + 1 = wrrN servers * q + i := by
        omega
      rw [exCw, entryCw, hr0eq, e2, Nat.mul_add_div hn,
        Nat.div_eq_of_lt hi, Nat.add_zero, if_neg hi0, Nat.add_zero]
  have hhit_iff : ∀ q ∈ Finset.range (wrrP servers),
      (hitB servers
        (wrrN servers * q + (i + wrrN servers - 1) % wrrN servers) = true)
      ↔ (wrrM servers
          - wrrG servers * ((q + (if i = 0 then 1 else 0)) % wrrP servers)
          ≤ wrrWeightAt servers i) := by
    intro q _
    rw [hitB, decide_eq_true_eq, hidxq q, hexcw q]
  rw [hstep1, Finset.filter_congr hhit_iff,
    card_filter_rotate (wrrP servers) (if i = 0 then 1 else 0) hP
      (fun x => wrrM servers - wrrG servers * x ≤ wrrWeightAt servers i)]
  have hceq : wrrG servers * (wrrWeightAt servers i / wrrG servers)
      = wrrWeightAt servers i := Nat.mul_div_cancel' (hdvd i hi)
  have hcP : wrrWeightAt servers i / wrrG servers ≤ wrrP servers := by
    have h1 : wrrWeightAt servers i / wrrG servers
        ≤ wrrM servers / wrrG servers := Nat.div_le_div_right (hle i hi)
    have h2 : wrrM servers / wrrG servers = wrrP servers := by
      rw [hMP]
      exact Nat.mul_div_cancel_left _ hg
    omega
  have hcond : ∀ q ∈ Finset.range (wrrP servers),
      ((wrrM servers - wrrG servers * q ≤ wrrWeightAt servers i) ↔
       (wrrP servers - wrrWeightAt servers i / wrrG servers ≤ q)) := by
    intro q hq
    have hqP : q < wrrP servers := Finset.mem_range.mp hq
    constructor
    · intro hle2
      have h2 : wrrG servers * wrrP servers
          ≤ wrrG servers * (wrrWeightAt servers i / wrrG servers + q) := by
        have e : wrrG servers
              * (wrrWeightAt servers i / wrrG servers + q)
            = wrrG servers * (wrrWeightAt servers i / wrrG servers)
              + wrrG servers * q := by ring
        rw [e, hceq]
        omega
      have h3 := Nat.le_of_mul_le_mul_left h2 hg
      omega
    · intro hge
      have h3 : wrrP servers
          ≤ wrrWeightAt servers i / wrrG servers + q := by omega
      have h2 := Nat.mul_le_mul_left (wrrG servers) h3
      have e : wrrG servers * (wrrWeightAt servers i / wrrG servers + q)
          = wrrWeightAt servers i + wrrG servers * q := by
        rw [Nat.left_distrib, hceq]
      rw [e] at h2
      omega
  rw [Finset.filter_congr hcond, card_range_filter_le]
  exact Nat.sub_sub_self hcP

/-- The guard successes of one cycle, partitioned by examined index. -/
theorem wrrT_sum (servers : List ServerState) (hE : wrrE servers ≠ []) :
    wrrT servers = ∑ i ∈ Finset.range (wrrN servers),
      wrrWeightAt servers i / wrrG servers := by
  have hn : 0 < wrrN servers := List.length_pos.mpr hE
  have hmap : ∀ j ∈ (Finset.range (wrrL servers)).filter
      (fun j => hitB servers j = true),
      exIdx servers j ∈ Finset.range (wrrN servers) := by
    intro j _
    exact Finset.mem_range.mpr (Nat.mod_lt _ hn)
  rw [wrrT, Finset.card_eq_sum_card_fiberwise hmap]
  apply Finset.sum_congr rfl
  intro i hi
  rw [Finset.filter_filter]
  exact hits_index_count servers hE i (Finset.mem_range.mp hi)

/-- The sum of the eligible weights is `g` times the selections per cycle. -/
theorem wrrS_eq_gT (servers : List ServerState) (hE : wrrE servers ≠ []) :
    wrrS servers = wrrG servers * wrrT servers := by
  obtain ⟨hn, hwAt, hg, hdvd, hle, hgM, hMpos, hMP, hP, hattain⟩ :=
    wrr_base servers hE
  rw [wrrT_sum servers hE, wrrS, Finset.mul_sum]
  apply Finset.sum_congr rfl
  intro i hi
  exact (Nat.mul_div_cancel' (hdvd i (Finset.mem_range.mp hi))).symm

/-- C6: over a stable non-empty eligible set (all weights positive), every
call of the weighted round-robin balancer selects the eligible server at the
index it stores, and over any window of `sum(weights)` consecutive calls the
server at position `i` is selected exactly `weight_i` times — each server's
share equals its weight. -/
theorem wrr_weight_proportional_window (servers : List ServerState)
    (hE : wrrE servers ≠ []) :
    (∀ t, (wrrRun servers (t + 1)).current_index < wrrN servers ∧
      wrrSelAt servers t = some ((wrrE servers).getD
        ((wrrRun servers (t + 1)).current_index) default)) ∧
    (∀ t0 i, i < wrrN servers →
      wrrSelCount servers t0 (wrrS servers) i = wrrWeightAt servers i) := by
  obtain ⟨hn, hwAt, hg, hdvd, hle, hgM, hMpos, hMP, hP, hattain⟩ :=
    wrr_base servers hE
  have hrun : ∀ t, (wrrRun servers (t + 1)).current_index
      = exIdx servers (selPos servers t) := by
    intro t
    rw [(wrrRun_state servers hE t).1]
  constructor
  · intro t
    constructor
    · rw [hrun t]
      exact Nat.mod_lt _ hn
    · rw [hrun t]
      exact (wrrRun_state servers hE t).2
  · intro t0 i hi
    rw [wrrSelCount]
    have hcong : ∀ d ∈ Finset.range (wrrS servers),
        ((wrrRun servers (t0 + d + 1)).current_index = i ↔
         exIdx servers (selPos servers (t0 + d)) = i) := by
      intro d _
      rw [hrun (t0 + d)]
    have hTper : ∀ t,
        (if exIdx servers (selPos servers (t + wrrT servers)) = i
         then 1 else 0)
        = if exIdx servers (selPos servers t) = i then 1 else 0 := by
      intro t
      rw [selPos_add_T servers hE t, exIdx_add_L]
    rw [Finset.filter_congr hcong, Finset.card_filter, wrrS_eq_gT servers hE,
      sum_blocks_periodic
        (fun t => if exIdx servers (selPos servers t) = i then 1 else 0)
        (wrrT servers) hTper t0 (wrrG servers)]
    have hblock : ∑ d ∈ Finset.range (wrrT servers),
        (if exIdx servers (selPos servers (t0 + d)) = i then 1 else 0)
        = wrrWeightAt servers i / wrrG servers := by
      rw [← Finset.card_filter]
      have hbij : ((Finset.range (wrrT servers)).filter
          (fun d => exIdx servers (selPos servers (t0 + d)) = i)).card
          = ((Finset.Ico (selPos servers t0)
              (selPos servers t0 + wrrL servers)).filter
              (fun j => hitB servers j = true ∧ exIdx servers j = i)).card := by
        apply Finset.card_nbij (fun d => selPos servers (t0 + d))
        · intro d hd
          simp only [Finset.mem_filter, Finset.mem_range, Finset.mem_Ico]
            at hd ⊢
          obtain ⟨hdT, hdi⟩ := hd
          have hmono := selPos_strictMono servers hE
          refine ⟨⟨hmono.monotone (Nat.le_add_right t0 d), ?_⟩,
            (hitsBelow_selPos servers hE (t0 + d)).2, hdi⟩
          have hlt : selPos servers (t0 + d)
              < selPos servers (t0 + wrrT servers) := hmono (by omega)
          rw [selPos_add_T servers hE t0] at hlt
          exact hlt
        · intro x hx y hy hxy
          have := (selPos_strictMono servers hE).injective hxy
          omega
        · intro j hj
          simp only [Finset.coe_filter, Set.mem_setOf_eq, Finset.mem_Ico]
            at hj
          obtain ⟨⟨hj1, hj2⟩, hjhit, hjidx⟩ := hj
          have hjsel : selPos servers (hitsBelow servers j) = j :=
            selPos_eq_of_hit servers hE j hjhit
          have hb1 : t0 ≤ hitsBelow servers j := by
            have hm := hitsBelow_mono servers hj1
            rw [(hitsBelow_selPos servers hE t0).1] at hm
            exact hm
          have hb2 : hitsBelow servers j < t0 + wrrT servers := by
            by_contra hcon
            push_neg at hcon
            have hm := (selPos_strictMono servers hE).monotone hcon
            rw [hjsel, selPos_add_T servers hE t0] at hm
            omega
          refine ⟨hitsBelow servers j - t0, ?_, ?_⟩
          · simp only [Finset.coe_filter, Set.mem_setOf_eq, Finset.mem_range]
            constructor
            · omega
            · rw [show t0 + (hitsBelow servers j - t0) = hitsBelow servers j
                from by omega, hjsel]
              exact hjidx
          · show selPos servers (t0 + (hitsBelow servers j - t0)) = j
            rw [show t0 + (hitsBelow servers j - t0) = hitsBelow servers j
              from by omega, hjsel]
      have hper2 : ∀ j, (if (hitB servers (j + wrrL servers) = true ∧
            exIdx servers (j + wrrL servers) = i) then 1 else 0)
          = if (hitB servers j = true ∧ exIdx servers j = i)
            then 1 else 0 := by
        intro j
        rw [hitB_add_L servers hn, exIdx_add_L]
      have hrangeEq : ∑ d ∈ Finset.range (wrrL servers),
          (if (hitB servers (selPos servers t0 + d) = true ∧
               exIdx servers (selPos servers t0 + d) = i) then 1 else 0)
          = ∑ j ∈ Finset.range (wrrL servers),
            (if (hitB servers j = true ∧ exIdx servers j = i)
             then 1 else 0) :=
        sum_window_periodic
          (fun j => if (hitB servers j = true ∧ exIdx servers j = i)
            then 1 else 0) (wrrL servers) hper2 (selPos servers t0)
      rw [hbij, Finset.card_filter, Finset.sum_Ico_eq_sum_range,
        Nat.add_sub_cancel_left, hrangeEq, ← Finset.card_filter]
      exact hits_index_count servers hE i hi
    rw [hblock]
    exact Nat.mul_div_cancel' (hdvd i hi)

/-- Witness: over the two-server pool with weights 2 and 1 (the weight sum is
3), the windows of three consecutive calls starting at calls 0 and 5 select
position 0 twice and position 1 once. -/
theorem wrr_weight_proportional_window_witness :
    wrrS [srvW2, srvW1] = 3 ∧
    wrrWeightAt [srvW2, srvW1] 0 = 2 ∧
    wrrSelCount [srvW2, srvW1] 0 (wrrS [srvW2, srvW1]) 0
        = wrrWeightAt [srvW2, srvW1] 0 ∧
    wrrSelCount [srvW2, srvW1] 5 (wrrS [srvW2, srvW1]) 1
        = wrrWeightAt [srvW2, srvW1] 1 :=
  ⟨by decide, by decide,
   (wrr_weight_proportional_window [srvW2, srvW1] (by decide)).2 0 0
     (by decide),
   (wrr_weight_proportional_window [srvW2, srvW1] (by decide)).2 5 1
     (by decide)⟩

/-- Witness: the concrete configuration `ddosBothCfg` has the address on both
lists, and both checks permit it. -/
theorem whitelist_short_circuits_blacklist_witness :
    (IpAddr.v4 1) ∈ ddosBothCfg.whitelist ∧
    (IpAddr.v4 1) ∈ ddosBothCfg.blacklist ∧
    (DdosProtection.check_rate_limit ddosBothCfg [] (IpAddr.v4 1) 0).1 = true ∧
    (DdosProtection.check_connection_limit ddosBothCfg [] (IpAddr.v4 1) 0).1 = true :=
  ⟨by decide, by decide,
   (whitelist_short_circuits_blacklist ddosBothCfg [] (IpAddr.v4 1) 0
     (by decide)).1,
   (whitelist_short_circuits_blacklist ddosBothCfg [] (IpAddr.v4 1) 0
     (by decide)).2.1⟩

end Turbogate
